import Mathlib

/-! Verification development for the Word template-expansion engine of the
    CarbonReportSAUR repository (src/word_blocks.py and src/word_renderer.py).
    Python strings are embedded as `List Char`; python-docx documents are
    lists of body elements (paragraphs made of runs, and tables made of rows
    of cells of paragraphs).  The aggregation / chart / KPI collaborators
    (trees, pandas frames, matplotlib, float formatting) are out of the core
    per the spec; they are represented at their interface by data carried in
    the `Context` record, exactly where the renderer consumes their output. -/

namespace CarbonReport

abbrev Str := List Char

/-- Whitespace characters removed by Python `str.strip()`. -/
def isPySpace (c : Char) : Bool :=
  c == ' ' || c == '\t' || c == '\n' || c == '\r' || c == '\x0b' || c == '\x0c'

/-- Python `s.strip()`. -/
def pyStrip (s : Str) : Str :=
  ((s.dropWhile isPySpace).reverse.dropWhile isPySpace).reverse

/-- Prefix test: `strStartsWith pat s` holds when `s` starts with `pat`. -/
def strStartsWith : Str → Str → Bool
  | [], _ => true
  | _ :: _, [] => false
  | a :: pa, b :: sb => a == b && strStartsWith pa sb

/-- Python substring operator `pat in s` (an empty pattern is in every string). -/
def strHasSub (pat : Str) : Str → Bool
  | [] => strStartsWith pat []
  | c :: t => strStartsWith pat (c :: t) || strHasSub pat t

/-- Bounded pass of Python `str.replace` (left-to-right, non-overlapping).
    The fuel only makes the recursion structural: callers pass `s.length`,
    which suffices because a successful match consumes at least one char. -/
def replAux (pat rep : Str) : Nat → Str → Str
  | 0, s => s
  | _ + 1, [] => []
  | fuel + 1, c :: cs =>
    if strStartsWith pat (c :: cs) then
      rep ++ replAux pat rep fuel (List.drop pat.length (c :: cs))
    else c :: replAux pat rep fuel cs

/-- Python `s.replace(pat, rep)`; an empty pattern matches at every gap. -/
def pyReplace (pat rep s : Str) : Str :=
  match pat with
  | [] => rep ++ s.flatMap (fun c => c :: rep)
  | _ :: _ => replAux pat rep s.length s

/-- Apply an (insertion-ordered) replacement dict to one string, as the
    Python loops `for placeholder, value in replacements.items()` do. -/
def applyReps (reps : List (Str × Str)) (t : Str) : Str :=
  reps.foldl (fun acc kv => pyReplace kv.1 kv.2 acc) t

/-- No key of the replacement dict occurs in `t`. -/
def strNoKeys (reps : List (Str × Str)) (t : Str) : Bool :=
  reps.all (fun kv => !(strHasSub kv.1 t))

/-- Join a list of strings with a separator (Python `sep.join(xs)`). -/
def strJoin (sep : Str) : List Str → Str
  | [] => []
  | [x] => x
  | x :: y :: rest => x ++ sep ++ strJoin sep (y :: rest)

/-! The document model.  A paragraph is its list of run texts, an optional
    explicit alignment (the renderer only ever assigns LEFT, encoded `some 0`),
    and the identifiers of pictures embedded in its runs.  Tables are rows of
    cells of paragraphs.  Run styles and picture sizes are not observed by any
    claim and are not modelled. -/

structure Paragraph where
  runs : List Str
  align : Option Nat
  images : List Nat
deriving DecidableEq

abbrev TableRows := List (List (List Paragraph))

inductive Element where
  | para : Paragraph → Element
  | table : TableRows → Element
deriving DecidableEq

abbrev Docu := List Element

def emptyPara : Paragraph := ⟨[], none, []⟩

/-- `paragraph.text`: concatenation of its run texts. -/
def paraText (p : Paragraph) : Str := p.runs.flatten

/-- `doc.paragraphs`: the body-level paragraphs, in order (cell paragraphs
    are not part of this sequence, exactly as in python-docx). -/
def docParas (d : Docu) : List Paragraph :=
  d.filterMap (fun el => match el with | .para p => some p | .table _ => none)

/-- `doc.tables`: the body-level tables, in order. -/
def docTables (d : Docu) : List TableRows :=
  d.filterMap (fun el => match el with | .para _ => none | .table t => some t)

/-- Rewrite each body paragraph through `f` applied to its paragraph index. -/
def mapParasIdx (f : Nat → Paragraph → Paragraph) : Nat → Docu → Docu
  | _, [] => []
  | i, .para p :: rest => .para (f i p) :: mapParasIdx f (i + 1) rest
  | i, .table t :: rest => .table t :: mapParasIdx f i rest

/-- Rewrite each list entry through `f` applied to its position. -/
def mapWithIdx {α : Type} (f : Nat → α → α) : Nat → List α → List α
  | _, [] => []
  | i, a :: rest => f i a :: mapWithIdx f (i + 1) rest

/-- Body position of the paragraph with paragraph index `n`
    (`elements.index(paragraphs[n]._element)` in the Python code). -/
def paraBodyPos : Nat → Docu → Option Nat
  | _, [] => none
  | 0, .para _ :: _ => some 0
  | n + 1, .para _ :: rest => (paraBodyPos n rest).map (fun q => q + 1)
  | n, .table _ :: rest => (paraBodyPos n rest).map (fun q => q + 1)

/-- Remove every paragraph whose paragraph index lies in `[s, e]`; table
    elements are untouched (faithful to `_delete_block`, which walks only
    `doc.paragraphs` and removes those elements from their parent). -/
def deleteParasRange (s e : Nat) : Nat → Docu → Docu
  | _, [] => []
  | i, .para p :: rest =>
    if s ≤ i ∧ i ≤ e then deleteParasRange s e (i + 1) rest
    else .para p :: deleteParasRange s e (i + 1) rest
  | i, .table t :: rest => .table t :: deleteParasRange s e i rest

/-! Marker sentinels and placeholder tokens used by the renderer. -/

def startLotM : Str := "[[START_LOT]]".toList
def endLotM : Str := "[[END_LOT]]".toList
def startActivityM : Str := "[[START_ACTIVITY]]".toList
def endActivityM : Str := "[[END_ACTIVITY]]".toList
def startPostM : Str := "[[START_POST]]".toList
def endPostM : Str := "[[END_POST]]".toList
def startOtherPostM : Str := "[[START_OTHER_POST]]".toList
def endOtherPostM : Str := "[[END_OTHER_POST]]".toList

def allMarkers : List Str :=
  [startLotM, endLotM, startActivityM, endActivityM,
   startPostM, endPostM, startOtherPostM, endOtherPostM]

def bracePair : Str := "\x7b\x7b".toList
def lotNameTok : Str := "\x7b\x7bLOT_NAME\x7d\x7d".toList
def entActivityTok : Str := "\x7b\x7bENT_ACTIVITY\x7d\x7d".toList
def entityTopTok : Str := "\x7b\x7bENTITY_TOP_POSTES_LIST\x7d\x7d".toList
def kpiM3Tok : Str := "\x7b\x7bkpi_m3_lot_act\x7d\x7d".toList
def kpiHabTok : Str := "\x7b\x7bkpi_hab_lot_act\x7d\x7d".toList
def postTitleTok : Str := "\x7b\x7bPOST_TITLE\x7d\x7d".toList
def postTextTok : Str := "\x7b\x7bPOST_TEXT\x7d\x7d".toList
def emisPosteTok : Str := "\x7b\x7bemissions_poste\x7d\x7d".toList
def pctPosteTok : Str := "\x7b\x7bemissions_poste_pourcentage\x7d\x7d".toList
def otherTitleTok : Str := "\x7b\x7bOTHER_POST_TITLE\x7d\x7d".toList
def otherTco2Tok : Str := "\x7b\x7bOTHER_POST_TCO2E\x7d\x7d".toList
def otherTextTok : Str := "\x7b\x7bOTHER_POST_TEXT\x7d\x7d".toList
def postChartTok : Str := "\x7b\x7bPOST_CHART_1\x7d\x7d".toList
def postTableTok : Str := "\x7b\x7bPOST_TABLE_1\x7d\x7d".toList
def postImageTok : Str := "\x7b\x7bPOST_IMAGE_1\x7d\x7d".toList
def orgLogoTok : Str := "\x7b\x7bORG_LOGO\x7d\x7d".toList
def chartScopeEntTok : Str := "\x7b\x7bchart_pie_scope_entity_activity\x7d\x7d".toList
def chartPostesEntTok : Str := "\x7b\x7bchart_pie_postes_entity_activity\x7d\x7d".toList
def chartScopeOrgTok : Str := "\x7b\x7bchart_emissions_scope_org\x7d\x7d".toList
def chartTotalOrgTok : Str := "\x7b\x7bchart_emissions_total_org\x7d\x7d".toList
def chartContribLotTok : Str := "\x7b\x7bchart_contrib_lot\x7d\x7d".toList
def chartElecOrgTok : Str := "\x7b\x7bchart_emissions_elec_org\x7d\x7d".toList
def chartTop3Tok : Str := "\x7b\x7bchart_batonnet_inter_lot_top3\x7d\x7d".toList

/-! `BlockProcessor.find_block` (word_blocks.py).  The loop keeps overwriting
    `start_idx` each time a paragraph contains the start marker, and stops at
    the first end-marker paragraph seen while `start_idx` is set. -/

def findBlockAux (sM eM : Str) : List Paragraph → Nat → Option Nat → Option (Nat × Nat)
  | [], _, _ => none
  | p :: rest, i, acc =>
    let t := pyStrip (paraText p)
    if strHasSub sM t then findBlockAux sM eM rest (i + 1) (some i)
    else if strHasSub eM t ∧ acc ≠ none then some (acc.getD 0, i)
    else findBlockAux sM eM rest (i + 1) acc

def find_block (sM eM : Str) (d : Docu) : Option (Nat × Nat) :=
  findBlockAux sM eM (docParas d) 0 none

/-- The range-constrained scan shared by `_find_block_in_range` and the
    inner loops of the `_find_all_*_blocks` helpers (word_renderer.py):
    record the first paragraph containing the start marker, return at the
    next paragraph containing the end marker.  `rem` is the number of
    positions left before the scan's exclusive stop index, `i` the absolute
    index of the head paragraph. -/
def scanAux (sM eM : Str) : List Paragraph → Nat → Nat → Option Nat → Option (Nat × Nat)
  | _, 0, _, _ => none
  | [], _, _, _ => none
  | p :: rest, rem + 1, i, acc =>
    let t := pyStrip (paraText p)
    if strHasSub sM t ∧ acc = none then scanAux sM eM rest rem (i + 1) (some i)
    else if strHasSub eM t ∧ acc ≠ none then some (acc.getD 0, i)
    else scanAux sM eM rest rem (i + 1) acc

/-- `WordRenderer._find_block_in_range`: scan `[lo, min(hi+1, len))`. -/
def find_block_in_range (sM eM : Str) (lo hi : Nat) (d : Docu) : Option (Nat × Nat) :=
  let ps := docParas d
  scanAux sM eM (ps.drop lo) (min (hi + 1) ps.length - lo) lo none

/-- Scan for the first paragraph whose raw (unstripped) text contains `pat`,
    used by `_find_marker_index`, `_find_paragraph_in_range` and the image
    insertion helpers. -/
def findPhAux (pat : Str) : List Paragraph → Nat → Nat → Option Nat
  | _, 0, _ => none
  | [], _, _ => none
  | p :: rest, rem + 1, i =>
    if strHasSub pat (paraText p) then some i else findPhAux pat rest rem (i + 1)

/-- `WordRenderer._find_marker_index`. -/
def find_marker_index (marker : Str) (startIdx : Nat) (endIdx : Option Nat) (d : Docu) : Option Nat :=
  let ps := docParas d
  let stop := min (endIdx.getD ps.length) ps.length
  findPhAux marker (ps.drop startIdx) (stop - startIdx) startIdx

/-- The `while` loops of the `_find_all_*_blocks` helpers.  Each iteration
    scans `[current, innerStop)` for one complete pair, records it and
    restarts at `end + 1`.  The scan always returns `e ≥ current`, so the
    loop runs at most `len + 1` times; the fuel makes that structural. -/
def findAllAux (sM eM : Str) (ps : List Paragraph) (whileBound innerStop : Nat) :
    Nat → Nat → List (Nat × Nat)
  | 0, _ => []
  | fuel + 1, current =>
    if current < whileBound ∧ current < ps.length then
      match scanAux sM eM (ps.drop current) (innerStop - current) current none with
      | some (s, e) => (s, e) :: findAllAux sM eM ps whileBound innerStop fuel (e + 1)
      | none => []
    else []

/-- `WordRenderer._find_all_lot_blocks`: whole-document repeated scan. -/
def find_all_lot_blocks (d : Docu) : List (Nat × Nat) :=
  let ps := docParas d
  findAllAux startLotM endLotM ps ps.length ps.length (ps.length + 1) 0

/-- `_find_all_post_blocks` / `_find_all_activity_blocks` /
    `_find_all_other_post_blocks`: repeated scan of a parent zone, with the
    inner scan stopping strictly before `parentEnd`. -/
def find_all_blocks_in_zone (sM eM : Str) (parentStart parentEnd : Nat) (d : Docu) :
    List (Nat × Nat) :=
  let ps := docParas d
  findAllAux sM eM ps parentEnd (min parentEnd ps.length) (ps.length + 1) parentStart

/-- `BlockProcessor.duplicate_block`: copy the paragraph elements with index
    in `[s, e]` (tables lying between them are not copied) and insert the
    copies, `n` blocks of them, right after the body position of paragraph
    `e`.  Always returns the empty list of copy indices, as the source does.
    The slice `(drop s).take (e+1-s)` is the Python list comprehension
    `[paragraphs[i] for i in range(start, end+1) if i < len(paragraphs)]`. -/
def duplicate_block (s e n : Nat) (d : Docu) : Docu × List (Nat × Nat) :=
  let ps := docParas d
  let blockParas := (ps.drop s).take (e + 1 - s)
  match paraBodyPos e d with
  | none => (d, [])
  | some pos =>
    let copies := (List.replicate n blockParas).flatMap (fun b => b.map Element.para)
    (d.take (pos + 1) ++ copies ++ d.drop (pos + 1), [])

/-- `BlockProcessor.remove_block_markers`: delete every body paragraph whose
    stripped text equals one of the two markers (strict equality). -/
def remove_block_markers (sM eM : Str) (d : Docu) : Docu :=
  d.filter (fun el => match el with
    | .para p => !(pyStrip (paraText p) == sM || pyStrip (paraText p) == eM)
    | .table _ => true)

/-- Write-back used by every substitution site: put the whole new text in
    the first run and blank the remaining runs (a paragraph with no runs
    gets one run holding the text); replacing run contents drops any
    pictures those runs held. -/
def writeBackRuns (t : Str) : List Str → List Str
  | [] => [t]
  | _ :: rest => t :: rest.map (fun _ => [])

/-- Per-paragraph body of the first half of `replace_in_block`: substitute
    all keys in the concatenated run text; force LEFT alignment whenever the
    dict holds the `ENTITY_TOP_POSTES_LIST` key and the paragraph contains
    that token; write back only when the text changed. -/
def blockParaSubst (reps : List (Str × Str)) (p : Paragraph) : Paragraph :=
  let orig := paraText p
  let t := applyReps reps orig
  let al := if (∃ kv ∈ reps, kv.1 = entityTopTok) ∧ strHasSub entityTopTok orig then some 0
            else p.align
  if t ≠ orig then ⟨writeBackRuns t p.runs, al, []⟩ else ⟨p.runs, al, p.images⟩

/-- Per-paragraph substitution for table cells (no alignment special case). -/
def cellParaSubst (reps : List (Str × Str)) (p : Paragraph) : Paragraph :=
  let orig := paraText p
  let t := applyReps reps orig
  if t ≠ orig then ⟨writeBackRuns t p.runs, p.align, []⟩ else p

def substTable (reps : List (Str × Str)) (rows : TableRows) : TableRows :=
  rows.map (fun row => row.map (fun cell => cell.map (cellParaSubst reps)))

/-- The table half of `replace_in_block`: a body-level table whose body
    position lies in `[posS, posE]` has all its cell paragraphs substituted
    (`_is_element_in_range`); other elements pass through. -/
def tableStageF (reps : List (Str × Str)) (posS posE : Nat) (q : Nat) (el : Element) : Element :=
  match el with
  | Element.para p => Element.para p
  | Element.table rows =>
    if posS ≤ q ∧ q ≤ posE then Element.table (substTable reps rows)
    else Element.table rows

/-- `BlockProcessor.replace_in_block`: substitute in the paragraphs with
    index in `[s, e]`, then — unless an index is out of range, in which case
    the Python code returns early — substitute in every body table whose
    body position lies between the body positions of paragraphs `s` and `e`. -/
def replace_in_block (reps : List (Str × Str)) (s e : Nat) (d : Docu) : Docu :=
  let n := (docParas d).length
  let body1 := mapParasIdx (fun i p => if s ≤ i ∧ i ≤ e then blockParaSubst reps p else p) 0 d
  if s ≥ n ∨ e ≥ n then body1
  else mapWithIdx (tableStageF reps ((paraBodyPos s d).getD 0) ((paraBodyPos e d).getD 0)) 0 body1

/-- `WordRenderer._delete_block`. -/
def delete_block (s e : Nat) (d : Docu) : Docu := deleteParasRange s e 0 d

/-- `WordRenderer._replace_in_paragraph`: whole-text substitution guarded by
    the presence of a brace pair, write-back only on change. -/
def replace_in_paragraph (reps : List (Str × Str)) (p : Paragraph) : Paragraph :=
  let full := paraText p
  if strHasSub bracePair full then
    let t := applyReps reps full
    if t ≠ full then ⟨writeBackRuns t p.runs, p.align, []⟩ else p
  else p

/-! The external collaborators, represented at their interface.  Emission
    totals are floats in the source; every place the renderer turns them into
    text (French-locale formatting, percentages against the entity total,
    `format_number`) is represented by the resulting display string carried
    alongside the poste code, since no claim concerns the numerals. -/

structure PostEntry where
  code : Str
  valTxt : Str
  emisTxt : Str
  pctTxt : Str
  fmtTxt : Str
deriving DecidableEq

structure EmissionRes where
  topPostes : List PostEntry
  otherPostes : List PostEntry
deriving DecidableEq

structure LotNode where
  node_id : Str
  node_name : Str
deriving DecidableEq

/-- The tree helpers the renderer calls (`tree.py` at its interface):
    activity sets are carried as lists and sorted by the renderer. -/
structure Tree where
  lots : List LotNode
  lotActivities : Str → List Str
  orgActivities : List Str
  orgId : Str

structure Content where
  poste_l1_code : Str
  chart_key : Str
  table_key : Str
  image_key : Str
  text : Str
deriving DecidableEq

structure Catalog where
  getContent : Str → Str → Option Content
  isChartSupported : Str → Bool
  isTableSupported : Str → Bool
  isImageSupported : Str → Bool

/-- Everything the rendering pipeline reads from its `context` dict and from
    the chart / table / asset backends.  Images are identifiers; `none`
    means the backend produced nothing (missing asset, no data rows, or a
    swallowed rendering exception). -/
structure Context where
  hasLots : Bool
  tree : Option Tree
  lotResults : Str → Option EmissionRes
  posteLabels : List (Str × Str)
  topN : Nat
  contentCatalog : Option Catalog
  simpleReps : List (Str × Str)
  assetImage : Str → Option Nat
  kpiM3Text : Str → Str
  kpiHabText : Str → Str
  scopePieEntity : EmissionRes → Option Nat
  postesPieEntity : EmissionRes → Option Nat
  postChart : Str → Str → Str → Option Str → Option Nat
  postTable : Str → Str → Str → Option Str → Option TableRows
  orgResultPresent : Bool
  orgChartScope : Option Nat
  orgChartTotal : Option Nat
  orgChartContrib : Option Nat
  orgChartElec : Option Nat
  orgChartTop3 : Option Nat

/-- Python `dict.get(code, code)` over the poste-label dict. -/
def labelOf (posteLabels : List (Str × Str)) (code : Str) : Str :=
  match posteLabels.find? (fun kv => kv.1 == code) with
  | some kv => kv.2
  | none => code

/-- Reverse label dict `{label: code}` (later pairs overwrite earlier ones). -/
def revLabelOf (posteLabels : List (Str × Str)) (lbl : Str) : Option Str :=
  (posteLabels.reverse.find? (fun kv => kv.2 == lbl)).map (fun kv => kv.1)

def strLower (s : Str) : Str := s.map Char.toLower

/-- `WordRenderer._resolve_post_content`. -/
def resolve_post_content (posteCode posteLabel activity : Str)
    (catalog : Option Catalog) (posteLabels : List (Str × Str)) : Option Content :=
  match catalog with
  | none => none
  | some cat =>
    let c1 : List Str := if posteCode ≠ [] then [posteCode] else []
    let c2 : List Str := if posteLabel ≠ [] ∧ posteLabel ≠ posteCode then [posteLabel] else []
    let c3 : List Str := match revLabelOf posteLabels posteCode with
      | some code => [code] | none => []
    let c4 : List Str := match revLabelOf posteLabels posteLabel with
      | some code => [code] | none => []
    let candidates := c1 ++ c2 ++ c3 ++ c4
    let normalized := (candidates.filter (fun c => !(c.isEmpty))).map
      (fun c => strLower (pyStrip c))
    let pick := fun (key : Str) =>
      match cat.getContent key activity with
      | some content =>
        if content.poste_l1_code ≠ [] ∧
            strLower (pyStrip content.poste_l1_code) ∈ normalized then some content
        else none
      | none => none
    candidates.findSome? pick

/-- Clear a paragraph and embed one picture in a fresh run
    (`paragraph.clear(); run = paragraph.add_run(); run.add_picture(...)`). -/
def clearAndImage (img : Nat) (p : Paragraph) : Paragraph := ⟨[[]], p.align, [img]⟩

def setParaAt (i : Nat) (f : Paragraph → Paragraph) (d : Docu) : Docu :=
  mapParasIdx (fun j p => if j = i then f p else p) 0 d

/-- `WordRenderer._insert_image_in_range`: first paragraph of `[s, e]` whose
    text contains the placeholder is cleared and receives the picture. -/
def insert_image_in_range (ph : Str) (img : Nat) (s e : Nat) (d : Docu) : Docu :=
  let ps := docParas d
  match findPhAux ph (ps.drop s) (min (e + 1) ps.length - s) s with
  | some i => setParaAt i (clearAndImage img) d
  | none => d

def cellHasPh (ph : Str) (rows : TableRows) : Bool :=
  rows.any (fun row => row.any (fun cell => cell.any (fun p => strHasSub ph (paraText p))))

def imageFirstInParas (ph : Str) (img : Nat) : List Paragraph → List Paragraph × Bool
  | [] => ([], false)
  | p :: rest =>
    if strHasSub ph (paraText p) then (clearAndImage img p :: rest, true)
    else
      let r := imageFirstInParas ph img rest
      (p :: r.1, r.2)

def imageFirstInCells (ph : Str) (img : Nat) : List (List Paragraph) → List (List Paragraph) × Bool
  | [] => ([], false)
  | cell :: rest =>
    let c := imageFirstInParas ph img cell
    if c.2 then (c.1 :: rest, true)
    else
      let r := imageFirstInCells ph img rest
      (cell :: r.1, r.2)

def imageFirstInRows (ph : Str) (img : Nat) : TableRows → TableRows × Bool
  | [] => ([], false)
  | row :: rest =>
    let c := imageFirstInCells ph img row
    if c.2 then (c.1 :: rest, true)
    else
      let r := imageFirstInRows ph img rest
      (row :: r.1, r.2)

def imageInTables (ph : Str) (img : Nat) : Docu → Docu
  | [] => []
  | .para p :: rest => .para p :: imageInTables ph img rest
  | .table rows :: rest =>
    let r := imageFirstInRows ph img rows
    if r.2 then .table r.1 :: rest
    else .table rows :: imageInTables ph img rest

/-- `WordRenderer._insert_image`: document-global search — first matching
    body paragraph, or failing that the first matching table cell paragraph. -/
def insert_image (ph : Str) (img : Nat) (d : Docu) : Docu :=
  let ps := docParas d
  match findPhAux ph ps ps.length 0 with
  | some i => setParaAt i (clearAndImage img) d
  | none => imageInTables ph img d

/-- `WordRenderer._insert_asset_image`: nothing happens when the asset file
    does not exist. -/
def insert_asset_image (ctx : Context) (ph : Str) (imageKey : Str) (d : Docu) : Docu :=
  match ctx.assetImage imageKey with
  | none => d
  | some img => insert_image ph img d

/-- `WordRenderer._insert_asset_image_in_range`. -/
def insert_asset_image_in_range (ctx : Context) (ph : Str) (imageKey : Str)
    (s e : Nat) (d : Docu) : Docu :=
  match ctx.assetImage imageKey with
  | none => d
  | some img => insert_image_in_range ph img s e d

/-- `WordRenderer._insert_static_logo`. -/
def insert_static_logo (ctx : Context) (d : Docu) : Docu :=
  insert_asset_image ctx orgLogoTok ("ORG_LOGO").toList d

/-- Replace the body element holding paragraph index `i` by a table: this is
    the net effect of `_insert_table_after_paragraph` followed by
    `_delete_paragraph` on the anchor in `_insert_post_table`. -/
def substParaWithTable (i : Nat) (rows : TableRows) : Nat → Docu → Docu
  | _, [] => []
  | j, .para p :: rest =>
    if j = i then .table rows :: rest
    else .para p :: substParaWithTable i rows (j + 1) rest
  | j, .table t :: rest => .table t :: substParaWithTable i rows j rest

/-- `WordRenderer._insert_post_table`: the pandas filtering / grouping and
    `TableGenerator.generate_table` are out of the core; `ctx.postTable`
    yields the generated table rows (`none` = no data, so nothing happens;
    a swallowed generation exception is an empty row list). -/
def insert_post_table (ctx : Context) (posteCode activity tableKey : Str)
    (parentTreeId : Option Str) (bounds : Option (Nat × Nat)) (d : Docu) : Docu :=
  match ctx.postTable posteCode activity tableKey parentTreeId with
  | none => d
  | some rows =>
    let ps := docParas d
    let anchor := match bounds with
      | some (bs, be) => findPhAux postTableTok (ps.drop bs) (min (be + 1) ps.length - bs) bs
      | none => findPhAux postTableTok ps ps.length 0
    match anchor with
    | none => d
    | some i => substParaWithTable i rows 0 d

/-- Truthiness of `content.key and content.key.strip()`. -/
def keyTruthy (k : Str) : Bool := !(pyStrip k).isEmpty

/-- `WordRenderer._insert_post_content`: chart, then table, then static
    image, each only when its key is applicable. -/
def insert_post_content (ctx : Context) (bs be : Nat) (posteCode activity : Str)
    (content : Option Content) (parentTreeId : Option Str) (d : Docu) : Docu :=
  match content with
  | none => d
  | some c =>
    let chartOk := match ctx.contentCatalog with
      | none => true | some cat => cat.isChartSupported c.chart_key
    let d1 := if keyTruthy c.chart_key && chartOk then
        match ctx.postChart posteCode activity c.chart_key parentTreeId with
        | some img => insert_image_in_range postChartTok img bs be d
        | none => d
      else d
    let tableOk := match ctx.contentCatalog with
      | none => true | some cat => cat.isTableSupported c.table_key
    let d2 := if keyTruthy c.table_key && tableOk then
        insert_post_table ctx posteCode activity c.table_key parentTreeId (some (bs, be)) d1
      else d1
    let imageOk := match ctx.contentCatalog with
      | none => false | some cat => cat.isImageSupported c.image_key
    if keyTruthy c.image_key && imageOk then
      insert_asset_image_in_range ctx postImageTok c.image_key bs be d2
    else d2

/-- `WordRenderer._insert_entity_charts`.  The `bs`/`be` block bounds are
    accepted and ignored exactly as in the source, which calls the
    document-global `_insert_image` for both entity charts. -/
def insert_entity_charts (ctx : Context) (bs be : Nat) (entityKey : Str) (d : Docu) : Docu :=
  match ctx.lotResults entityKey with
  | none => d
  | some result =>
    let _ := (bs, be)
    let d1 := match ctx.scopePieEntity result with
      | some img => insert_image chartScopeEntTok img d
      | none => d
    match ctx.postesPieEntity result with
    | some img => insert_image chartPostesEntTok img d1
    | none => d1

/-! The recursion orchestrator (word_renderer.py). -/

/-- Python `f(tree) if tree else dflt`. -/
def treeOr {α : Type} (ot : Option Tree) (dflt : α) (f : Tree → α) : α :=
  match ot with
  | some t => f t
  | none => dflt

/-- The `parent_tree_id` defaulting of the ORG branch:
    `if parent_tree_id is None and tree: parent_tree_id = tree.get_org().node_id`. -/
def orgParentTreeId (pt0 : Option Str) (ot : Option Tree) : Option Str :=
  match pt0, ot with
  | none, some t => some t.orgId
  | x, _ => x

/-- Lexicographic string order (Python `sorted` on strings). -/
def strLe : Str → Str → Bool
  | [], _ => true
  | _ :: _, [] => false
  | a :: as, b :: bs => if a = b then strLe as bs else decide (a < b)

def insertStr (x : Str) : List Str → List Str
  | [] => [x]
  | y :: rest => if strLe x y then x :: y :: rest else y :: insertStr x rest

/-- Insertion sort implementing Python `sorted(list(activities))`. -/
def sortStrs : List Str → List Str
  | [] => []
  | x :: rest => insertStr x (sortStrs rest)

/-- `WordRenderer._format_entity_top_postes_list`: the four most emissive
    postes, one dash line each; `valTxt` carries `_format_tco2_value`. -/
def format_entity_top_postes_list (r : EmissionRes) (posteLabels : List (Str × Str)) : Str :=
  if r.topPostes.isEmpty then []
  else strJoin ("\n").toList ((r.topPostes.take 4).map (fun en =>
    ("- ").toList ++ labelOf posteLabels en.code ++ (" - ").toList ++ en.valTxt ++ (" t CO2").toList))

def defaultPostEntry : PostEntry := ⟨[], [], [], [], []⟩

/-- Body of the reverse fill loop of `_process_post_blocks`. -/
def postFillStep (ctx : Context) (tops : List PostEntry) (blocks : List (Nat × Nat))
    (activity : Str) (parentTreeId : Option Str) (d : Docu) (i : Nat) : Docu :=
  let en := tops.getD i defaultPostEntry
  let bse := blocks.getD i (0, 0)
  let lbl := labelOf ctx.posteLabels en.code
  let content := resolve_post_content en.code lbl activity ctx.contentCatalog ctx.posteLabels
  let ctext : Str := match content with | some c => c.text | none => []
  let reps := [(postTitleTok, lbl), (postTextTok, ctext),
               (emisPosteTok, en.emisTxt), (pctPosteTok, en.pctTxt)]
  let d1 := replace_in_block reps bse.1 bse.2 d
  insert_post_content ctx bse.1 bse.2 en.code activity content parentTreeId d1

/-- `WordRenderer._process_post_blocks`. -/
def process_post_blocks (ctx : Context) (pStart pEnd : Nat) (entityKey activity : Str)
    (parentTreeId : Option Str) (d : Docu) : Docu :=
  let res := ctx.lotResults entityKey
  if (match res with | none => true | some r => r.topPostes.isEmpty) then
    match find_block_in_range startPostM endPostM pStart pEnd d with
    | some (s, e) => delete_block s e d
    | none => d
  else
    let tops := (match res with | some r => r.topPostes | none => []).take ctx.topN
    match find_block_in_range startPostM endPostM pStart pEnd d with
    | none => d
    | some (s, e) =>
      let d1 := if tops.length > 1 then (duplicate_block s e (tops.length - 1) d).1 else d
      let pEnd1 := (find_marker_index endActivityM pStart none d1).getD pEnd
      let blocks := find_all_blocks_in_zone startPostM endPostM pStart pEnd1 d1
      ((List.range (min tops.length blocks.length)).reverse).foldl
        (postFillStep ctx tops blocks activity parentTreeId) d1

/-- Body of the reverse fill loop of `_process_other_post_blocks`
    (text substitution only, no media injection). -/
def otherFillStep (ctx : Context) (others : List PostEntry) (blocks : List (Nat × Nat))
    (activity : Str) (d : Docu) (i : Nat) : Docu :=
  let en := others.getD i defaultPostEntry
  let bse := blocks.getD i (0, 0)
  let lbl := labelOf ctx.posteLabels en.code
  let content := resolve_post_content en.code lbl activity ctx.contentCatalog ctx.posteLabels
  let ctext : Str := match content with | some c => c.text | none => []
  let reps := [(otherTitleTok, lbl), (otherTco2Tok, en.fmtTxt), (otherTextTok, ctext),
               (emisPosteTok, en.emisTxt), (pctPosteTok, en.pctTxt)]
  replace_in_block reps bse.1 bse.2 d

/-- `WordRenderer._process_other_post_blocks`. -/
def process_other_post_blocks (ctx : Context) (pStart pEnd : Nat) (entityKey activity : Str)
    (parentTreeId : Option Str) (d : Docu) : Docu :=
  let _ := parentTreeId
  let res := ctx.lotResults entityKey
  if (match res with | none => true | some r => r.otherPostes.isEmpty) then
    match find_block_in_range startOtherPostM endOtherPostM pStart pEnd d with
    | some (s, e) => delete_block s e d
    | none => d
  else
    let others := match res with | some r => r.otherPostes | none => []
    match find_block_in_range startOtherPostM endOtherPostM pStart pEnd d with
    | none => d
    | some (s, e) =>
      let d1 := if others.length > 1 then (duplicate_block s e (others.length - 1) d).1 else d
      let pEnd1 := (find_marker_index endActivityM pStart none d1).getD pEnd
      let blocks := find_all_blocks_in_zone startOtherPostM endOtherPostM pStart pEnd1 d1
      ((List.range (min others.length blocks.length)).reverse).foldl
        (otherFillStep ctx others blocks activity) d1

/-- Body of the reverse fill loop of `_process_activity_blocks`: substitute
    the per-entity values, recurse into POST and OTHER_POST, then insert the
    entity charts. -/
def activityFillStep (ctx : Context) (acts : List Str) (blocks : List (Nat × Nat))
    (keyPrefix : Str) (parentTreeId : Option Str) (d : Docu) (i : Nat) : Docu :=
  let activity := acts.getD i []
  let bse := blocks.getD i (0, 0)
  let entityKey := keyPrefix ++ activity
  match ctx.lotResults entityKey with
  | none => d
  | some result =>
    let activityLabel : Str :=
      if activity = ("AEP").toList then ("Eau potable").toList else ("Eaux usées").toList
    let topList := format_entity_top_postes_list result ctx.posteLabels
    let reps := [(entActivityTok, activityLabel), (entityTopTok, topList),
                 (kpiM3Tok, ctx.kpiM3Text entityKey), (kpiHabTok, ctx.kpiHabText entityKey)]
    let d1 := replace_in_block reps bse.1 bse.2 d
    let d2 := process_post_blocks ctx bse.1 bse.2 entityKey activity parentTreeId d1
    let be1 := (find_marker_index endActivityM bse.1 none d2).getD bse.2
    let d3 := process_other_post_blocks ctx bse.1 be1 entityKey activity parentTreeId d2
    insert_entity_charts ctx bse.1 be1 entityKey d3

/-- `WordRenderer._process_activity_blocks`. -/
def process_activity_blocks (ctx : Context) (pStart pEnd : Nat) (parentNodeId : Str)
    (parentTreeId0 : Option Str) (d : Docu) : Docu :=
  let lotCase : Bool := ctx.hasLots && !(parentNodeId == ("ORG").toList)
  let activitiesSet := if lotCase then treeOr ctx.tree [] (fun t => t.lotActivities parentNodeId)
    else treeOr ctx.tree [] (fun t => t.orgActivities)
  let keyPrefix := if lotCase then ("LOT_").toList ++ parentNodeId ++ ("_").toList
    else ("ORG_").toList
  let parentTreeId := if lotCase then some parentNodeId
    else orgParentTreeId parentTreeId0 ctx.tree
  let acts := sortStrs activitiesSet
  if acts.isEmpty then
    match find_block_in_range startActivityM endActivityM pStart pEnd d with
    | some (s, e) => delete_block s e d
    | none => d
  else
    match find_block_in_range startActivityM endActivityM pStart pEnd d with
    | none => d
    | some (s, e) =>
      let d1 := if acts.length > 1 then (duplicate_block s e (acts.length - 1) d).1 else d
      let pEnd1 := if lotCase then (find_marker_index endLotM pStart none d1).getD pEnd else pEnd
      let blocks := find_all_blocks_in_zone startActivityM endActivityM pStart pEnd1 d1
      ((List.range (min acts.length blocks.length)).reverse).foldl
        (activityFillStep ctx acts blocks keyPrefix parentTreeId) d1

/-- `WordRenderer._process_org_activity_blocks` (flat topology: the ACTIVITY
    block is processed at document scope against the ORG entity). -/
def process_org_activity_blocks (ctx : Context) (d : Docu) : Docu :=
  match find_block startActivityM endActivityM d with
  | none => d
  | some _ =>
    let parentTreeId := treeOr ctx.tree none (fun t => some t.orgId)
    process_activity_blocks ctx 0 (docParas d).length (("ORG").toList) parentTreeId d

def defaultLot : LotNode := ⟨[], []⟩

/-- Body of the reverse fill loop of `_process_lot_blocks` (indices past the
    rescanned block list are skipped by the `continue` guard). -/
def lotFillStep (ctx : Context) (lots : List LotNode) (blocks : List (Nat × Nat))
    (d : Docu) (i : Nat) : Docu :=
  if i < blocks.length then
    let lot := lots.getD i defaultLot
    let bse := blocks.getD i (0, 0)
    let d1 := replace_in_block [(lotNameTok, lot.node_name)] bse.1 bse.2 d
    process_activity_blocks ctx bse.1 bse.2 lot.node_id none d1
  else d

/-- `WordRenderer._process_lot_blocks`. -/
def process_lot_blocks (ctx : Context) (d : Docu) : Docu :=
  if ctx.hasLots then
    match find_block startLotM endLotM d with
    | none => d
    | some (s, e) =>
      let lots := treeOr ctx.tree [] (fun t => t.lots)
      if lots.isEmpty then delete_block s e d
      else
        let d1 := if lots.length > 1 then (duplicate_block s e (lots.length - 1) d).1 else d
        let blocks := find_all_lot_blocks d1
        ((List.range lots.length).reverse).foldl (lotFillStep ctx lots blocks) d1
  else process_org_activity_blocks ctx d

/-- `WordRenderer._clean_all_markers` (innermost block type first). -/
def clean_all_markers (d : Docu) : Docu :=
  remove_block_markers startLotM endLotM
    (remove_block_markers startActivityM endActivityM
      (remove_block_markers startPostM endPostM
        (remove_block_markers startOtherPostM endOtherPostM d)))

/-- Character class of the orphan-cleanup regex `^\x7b\x7b[A-Z_0-9]+\x7d\x7d$`. -/
def isUpperPC (c : Char) : Bool :=
  (decide ('A' ≤ c) && decide (c ≤ 'Z')) || c == '_' || (decide ('0' ≤ c) && decide (c ≤ '9'))

def bareUpperAux : Str → Nat → Bool
  | [], _ => false
  | c :: cs, n =>
    if isUpperPC c then bareUpperAux cs (n + 1)
    else c == '\x7d' && cs == ['\x7d'] && decide (n ≥ 1)

/-- Full match of `re.match(r'^\x7b\x7b[A-Z_0-9]+\x7d\x7d$', text)` on an
    already-stripped text (which cannot end in a newline). -/
def matchesBareUpper (t : Str) : Bool :=
  match t with
  | '\x7b' :: '\x7b' :: rest => bareUpperAux rest 0
  | _ => false

/-- `WordRenderer._clean_empty_placeholders`: drop every body paragraph whose
    stripped text is one bare all-uppercase placeholder token. -/
def clean_empty_placeholders (d : Docu) : Docu :=
  d.filter (fun el => match el with
    | .para p => !(matchesBareUpper (pyStrip (paraText p)))
    | .table _ => true)

/-- `WordRenderer._replace_simple_placeholders`: document-global pass over
    body paragraphs and every table cell paragraph. -/
def replace_simple_placeholders (ctx : Context) (d : Docu) : Docu :=
  d.map (fun el => match el with
    | .para p => .para (replace_in_paragraph ctx.simpleReps p)
    | .table rows => .table (rows.map (fun row => row.map (fun cell =>
        cell.map (replace_in_paragraph ctx.simpleReps)))))

/-- The five document-level chart placeholders of `_insert_org_charts`, in
    the order the source builds its dict; a `none` image (chart unavailable
    or data empty) inserts nothing, matching both a missing dict key and a
    `None` buffer in the source. -/
def orgChartList (ctx : Context) : List (Str × Option Nat) :=
  [(chartScopeOrgTok, ctx.orgChartScope), (chartTotalOrgTok, ctx.orgChartTotal),
   (chartContribLotTok, ctx.orgChartContrib), (chartElecOrgTok, ctx.orgChartElec),
   (chartTop3Tok, ctx.orgChartTop3)]

/-- `WordRenderer._insert_org_charts`. -/
def insert_org_charts (ctx : Context) (d : Docu) : Docu :=
  if ctx.orgResultPresent then
    (orgChartList ctx).foldl (fun dd pc => match pc.2 with
      | some img => insert_image pc.1 img dd
      | none => dd) d
  else d

/-- `WordRenderer.render`: the full expansion pipeline over an in-memory
    template (template loading and serialization are external). -/
def render (ctx : Context) (d : Docu) : Docu :=
  let d1 := replace_simple_placeholders ctx d
  let d2 := insert_static_logo ctx d1
  let d3 := process_lot_blocks ctx d2
  let d4 := clean_all_markers d3
  let d5 := insert_org_charts ctx d4
  clean_empty_placeholders d5

/-! Statement vocabulary and concrete instances used by the claims. -/

/-- `noBk t` holds when `t` contains no opening bracket; every marker
    sentinel contains one, so bracket-free text can never contain a marker,
    even after substitutions. -/
def noBk (t : Str) : Bool := t.all (fun c => !(c == '['))

/-- A body paragraph whose stripped text equals some START/END sentinel. -/
def isMarkerPara (p : Paragraph) : Bool :=
  allMarkers.any (fun m => pyStrip (paraText p) == m)

/-- No body paragraph of the document is an exact marker paragraph. -/
def noMarkerParas (d : Docu) : Bool :=
  d.all (fun el => match el with
    | .para p => !(isMarkerPara p)
    | .table _ => true)

/-- No body paragraph of the document is a bare `[A-Z_0-9]+` placeholder. -/
def noBareUpperParas (d : Docu) : Bool :=
  d.all (fun el => match el with
    | .para p => !(matchesBareUpper (pyStrip (paraText p)))
    | .table _ => true)

/-- A bare `\x7b\x7b...\x7d\x7d` token, whatever stands between the braces
    (the shape the no-orphan claim quantifies over). -/
def isBareAnyToken (t : Str) : Bool :=
  strStartsWith bracePair t && strStartsWith (bracePair.reverse.map (fun _ => '\x7d')) t.reverse
    && decide (4 ≤ t.length)

/-- Single-run paragraph fixture. -/
def mkP (s : String) : Paragraph := ⟨[s.toList], none, []⟩

/-- Default paragraph for indexed access. -/
def pZ : Paragraph := ⟨[], none, []⟩

def startLotP : Paragraph := ⟨[startLotM], none, []⟩
def endLotP : Paragraph := ⟨[endLotM], none, []⟩

/-- A context in which every collaborator reports nothing. -/
def baseCtx : Context where
  hasLots := false
  tree := none
  lotResults := fun _ => none
  posteLabels := []
  topN := 4
  contentCatalog := none
  simpleReps := []
  assetImage := fun _ => none
  kpiM3Text := fun _ => []
  kpiHabText := fun _ => []
  scopePieEntity := fun _ => none
  postesPieEntity := fun _ => none
  postChart := fun _ _ _ _ => none
  postTable := fun _ _ _ _ => none
  orgResultPresent := false
  orgChartScope := none
  orgChartTotal := none
  orgChartContrib := none
  orgChartElec := none
  orgChartTop3 := none

def docC2 : Docu := [Element.para (mkP "x [[START_LOT]] y")]

def docC3 : Docu := [Element.para (mkP "\x7b\x7bkpi_m3_lot_act\x7d\x7d")]

def rowsC4 : TableRows := [[[mkP "cell"]]]
def treeC4 : Tree := ⟨[⟨("L1").toList, ("Lot 1").toList⟩], fun _ => [], [], ("ORG1").toList⟩
def ctxC4 : Context := { baseCtx with hasLots := true, tree := some treeC4 }
def docC4 : Docu :=
  [Element.para (mkP "[[START_ACTIVITY]]"), Element.table rowsC4,
   Element.para (mkP "[[END_ACTIVITY]]")]

def docC6 : Docu :=
  [Element.para (mkP "[[START_LOT]]"), Element.para (mkP "[[START_LOT]]"),
   Element.para (mkP "[[END_LOT]]")]

def docC7 : Docu := [Element.para ⟨[entityTopTok], none, []⟩]
def repsC7 : List (Str × Str) := [(entityTopTok, entityTopTok)]

def docC8 : Docu := [Element.para (mkP "\x7b\x7bA\x7d\x7d")]
def repsC8 : List (Str × Str) :=
  [(("\x7b\x7bB\x7d\x7d").toList, ("X").toList),
   (("\x7b\x7bA\x7d\x7d").toList, ("\x7b\x7bB\x7d\x7d").toList)]
def repsC8w : List (Str × Str) := [(("\x7b\x7bA\x7d\x7d").toList, ("x").toList)]

def resC9 : EmissionRes := ⟨[⟨("P1").toList, [], [], [], []⟩], []⟩
def ctxC9 : Context := { baseCtx with
  lotResults := fun k => if k == ("LOT_L1_EU").toList then some resC9 else none,
  scopePieEntity := fun _ => some 7 }
def docC9 : Docu :=
  [Element.para (mkP "[[START_ACTIVITY]]"), Element.para ⟨[chartScopeEntTok], none, []⟩,
   Element.para (mkP "[[END_ACTIVITY]]"),
   Element.para (mkP "[[START_ACTIVITY]]"), Element.para ⟨[chartScopeEntTok], none, []⟩,
   Element.para (mkP "[[END_ACTIVITY]]")]

/-- The canonical LOT extent of a template: START marker paragraph, inner
    paragraphs, END marker paragraph. -/
def lotBlk (mid : List Paragraph) : List Paragraph := startLotP :: mid ++ [endLotP]

/-- One LOT instance after its per-entity resolution. -/
def substLotBlk (mid : List Paragraph) (name : Str) : List Paragraph :=
  (lotBlk mid).map (blockParaSubst [(lotNameTok, name)])

/-- Intermediate document state of the LOT rank: after duplication, the
    instances with index `≥ j` are already resolved (the fill loop visits
    them in reverse order), the first `j` still hold the template text. -/
def lotState (pre mid suf : List Paragraph) (lots : List LotNode) (j : Nat) : Docu :=
  (pre ++ (List.replicate j (lotBlk mid)).flatten
    ++ ((lots.drop j).map (fun l => substLotBlk mid l.node_name)).flatten ++ suf).map
    Element.para

/-- The extents the re-scan records for `k` uniform instances of inner
    length `L` starting at paragraph index `P`. -/
def lotSpans (P L k : Nat) : List (Nat × Nat) :=
  (List.range k).map (fun i => (P + i * (L + 2), P + i * (L + 2) + L + 1))

def treeC1 : Tree :=
  ⟨[⟨("L1").toList, ("Alpha").toList⟩, ⟨("L2").toList, ("Beta").toList⟩],
   fun _ => [], [], ("ORG1").toList⟩
def ctxC1 : Context := { baseCtx with hasLots := true, tree := some treeC1 }
def preC1 : List Paragraph := [mkP "intro"]
def midC1 : List Paragraph := [mkP "Lot: \x7b\x7bLOT_NAME\x7d\x7d"]
def sufC1 : List Paragraph := [mkP "outro"]

/-! Basic lemmas about the string primitives. -/

theorem replAux_of_not_sub (pat rep : Str) :
    ∀ (s : Str) (fuel : Nat), strHasSub pat s = false → replAux pat rep fuel s = s := by
  intro s
  induction s with
  | nil =>
    intro fuel _
    cases fuel <;> rfl
  | cons c cs ih =>
    intro fuel h
    have hsub : strHasSub pat (c :: cs) = false := h
    rw [strHasSub] at hsub
    have h1 : strStartsWith pat (c :: cs) = false := by
      cases hx : strStartsWith pat (c :: cs) <;> simp [hx] at hsub ⊢
    have h2 : strHasSub pat cs = false := by
      cases hx : strHasSub pat cs <;> simp [hx] at hsub ⊢
    cases fuel with
    | zero => rfl
    | succ f =>
      rw [replAux, h1]
      simp only [Bool.false_eq_true, if_false]
      rw [ih f h2]

theorem pyReplace_of_not_sub (pat rep s : Str) (h : strHasSub pat s = false) :
    pyReplace pat rep s = s := by
  cases pat with
  | nil =>
    exfalso
    cases s <;> simp [strHasSub, strStartsWith] at h
  | cons p ps => exact replAux_of_not_sub (p :: ps) rep s s.length h

theorem mem_of_mem_replAux (pat rep : Str) :
    ∀ (fuel : Nat) (s : Str) (c : Char), c ∈ replAux pat rep fuel s → c ∈ s ∨ c ∈ rep := by
  intro fuel
  induction fuel with
  | zero => intro s c h; exact Or.inl h
  | succ f ih =>
    intro s c h
    cases s with
    | nil => exact absurd h (List.not_mem_nil c)
    | cons a as =>
      rw [replAux] at h
      by_cases hs : strStartsWith pat (a :: as) = true
      · rw [if_pos hs] at h
        rcases List.mem_append.mp h with hr | hr
        · exact Or.inr hr
        · rcases ih _ c hr with hh | hh
          · exact Or.inl (List.mem_of_mem_drop hh)
          · exact Or.inr hh
      · rw [if_neg hs] at h
        rcases List.mem_cons.mp h with hc | hc
        · exact Or.inl (hc ▸ List.mem_cons_self a as)
        · rcases ih _ c hc with hh | hh
          · exact Or.inl (List.mem_cons_of_mem a hh)
          · exact Or.inr hh

theorem mem_of_mem_pyReplace (pat rep s : Str) (c : Char) (h : c ∈ pyReplace pat rep s) :
    c ∈ s ∨ c ∈ rep := by
  cases pat with
  | nil =>
    rw [pyReplace] at h
    rcases List.mem_append.mp h with hr | hr
    · exact Or.inr hr
    · rcases List.mem_flatMap.mp hr with ⟨a, ha, hc⟩
      rcases List.mem_cons.mp hc with hc | hc
      · exact Or.inl (hc ▸ ha)
      · exact Or.inr hc
  | cons p ps => exact mem_of_mem_replAux (p :: ps) rep s.length s c h

theorem mem_of_mem_applyReps (reps : List (Str × Str)) :
    ∀ (t : Str) (c : Char), c ∈ applyReps reps t → c ∈ t ∨ ∃ kv ∈ reps, c ∈ kv.2 := by
  induction reps with
  | nil => intro t c h; exact Or.inl h
  | cons kv rest ih =>
    intro t c h
    have h1 : applyReps (kv :: rest) t = applyReps rest (pyReplace kv.1 kv.2 t) := rfl
    rw [h1] at h
    rcases ih _ c h with hh | hh
    · rcases mem_of_mem_pyReplace kv.1 kv.2 t c hh with hm | hm
      · exact Or.inl hm
      · exact Or.inr ⟨kv, List.mem_cons_self kv rest, hm⟩
    · rcases hh with ⟨kv2, hkv2, hc⟩
      exact Or.inr ⟨kv2, List.mem_cons_of_mem kv hkv2, hc⟩

theorem mem_of_mem_pyStrip (s : Str) (c : Char) (h : c ∈ pyStrip s) : c ∈ s := by
  rw [pyStrip, List.mem_reverse] at h
  have h2 := (List.dropWhile_sublist (l := (s.dropWhile isPySpace).reverse) (p := isPySpace)).subset h
  rw [List.mem_reverse] at h2
  exact (List.dropWhile_sublist (l := s) (p := isPySpace)).subset h2

theorem mem_of_strStartsWith (pat s : Str) (h : strStartsWith pat s = true) :
    ∀ c ∈ pat, c ∈ s := by
  induction pat generalizing s with
  | nil => intro c hc; exact absurd hc (List.not_mem_nil c)
  | cons a pa ih =>
    cases s with
    | nil => simp [strStartsWith] at h
    | cons b sb =>
      rw [strStartsWith, Bool.and_eq_true, beq_iff_eq] at h
      intro c hc
      rcases List.mem_cons.mp hc with hc | hc
      · exact List.mem_cons.mpr (Or.inl (hc.trans h.1))
      · exact List.mem_cons_of_mem b (ih sb h.2 c hc)

theorem mem_of_strHasSub (pat s : Str) (h : strHasSub pat s = true) :
    ∀ c ∈ pat, c ∈ s := by
  induction s with
  | nil =>
    rw [strHasSub] at h
    exact mem_of_strStartsWith pat [] h
  | cons b sb ih =>
    rw [strHasSub, Bool.or_eq_true] at h
    intro c hc
    rcases h with h | h
    · exact mem_of_strStartsWith pat (b :: sb) h c hc
    · exact List.mem_cons_of_mem b (ih h c hc)

/-- Bracket-free text cannot contain a sentinel holding an opening bracket. -/
theorem not_hasSub_of_noBk (m t : Str) (hm : '[' ∈ m) (ht : noBk t = true) :
    strHasSub m t = false := by
  cases h : strHasSub m t
  · rfl
  · exfalso
    have := mem_of_strHasSub m t h '[' hm
    rw [noBk, List.all_eq_true] at ht
    have := ht '[' this
    simp at this

theorem noBk_pyStrip (t : Str) (h : noBk t = true) : noBk (pyStrip t) = true := by
  rw [noBk, List.all_eq_true] at h ⊢
  intro c hc
  exact h c (mem_of_mem_pyStrip t c hc)

/-- Substituting bracket-free values into bracket-free text keeps it so. -/
theorem noBk_applyReps (reps : List (Str × Str)) (t : Str)
    (ht : noBk t = true) (hv : ∀ kv ∈ reps, noBk kv.2 = true) :
    noBk (applyReps reps t) = true := by
  rw [noBk, List.all_eq_true]
  intro c hc
  rcases mem_of_mem_applyReps reps t c hc with hm | ⟨kv, hkv, hm⟩
  · rw [noBk, List.all_eq_true] at ht
    exact ht c hm
  · have := hv kv hkv
    rw [noBk, List.all_eq_true] at this
    exact this c hm

/-! Lemmas about the document model combinators. -/

theorem docParas_map_para (l : List Paragraph) : docParas (l.map Element.para) = l := by
  induction l with
  | nil => rfl
  | cons p rest ih => simp [docParas] at ih ⊢; exact ih

theorem docParas_mapParasIdx (f : Nat → Paragraph → Paragraph) :
    ∀ (i : Nat) (d : Docu), docParas (mapParasIdx f i d) = mapWithIdx f i (docParas d) := by
  intro i d
  induction d generalizing i with
  | nil => rfl
  | cons el rest ih =>
    cases el with
    | para p => simp [mapParasIdx, docParas, mapWithIdx] at ih ⊢; exact ih _
    | table t => simp [mapParasIdx, docParas, mapWithIdx] at ih ⊢; exact ih _

theorem length_mapWithIdx {α : Type} (f : Nat → α → α) :
    ∀ (i : Nat) (l : List α), (mapWithIdx f i l).length = l.length := by
  intro i l
  induction l generalizing i with
  | nil => rfl
  | cons a rest ih => simp [mapWithIdx, ih]

theorem mapWithIdx_append {α : Type} (f : Nat → α → α) :
    ∀ (xs ys : List α) (i : Nat),
      mapWithIdx f i (xs ++ ys) = mapWithIdx f i xs ++ mapWithIdx f (i + xs.length) ys := by
  intro xs
  induction xs with
  | nil => intro ys i; simp [mapWithIdx]
  | cons a rest ih =>
    intro ys i
    show f i a :: mapWithIdx f (i + 1) (rest ++ ys)
      = f i a :: (mapWithIdx f (i + 1) rest ++ mapWithIdx f (i + (rest.length + 1)) ys)
    rw [ih ys (i + 1)]
    have : i + 1 + rest.length = i + (rest.length + 1) := by omega
    rw [this]

theorem mapWithIdx_getD {α : Type} (f : Nat → α → α) (dflt : α) :
    ∀ (l : List α) (j i : Nat), i < l.length →
      (mapWithIdx f j l).getD i dflt = f (j + i) (l.getD i dflt) := by
  intro l
  induction l with
  | nil => intro j i h; simp at h
  | cons a rest ih =>
    intro j i h
    cases i with
    | zero => rfl
    | succ n =>
      have hn : n < rest.length := by simpa using h
      have := ih (j + 1) n hn
      simp only [mapWithIdx, List.getD_cons_succ, this]
      congr 1
      omega

theorem mapWithIdx_id_of_mem {α : Type} (f : Nat → α → α) :
    ∀ (l : List α) (i : Nat), (∀ j a, a ∈ l → f j a = a) → mapWithIdx f i l = l := by
  intro l
  induction l with
  | nil => intro i _; rfl
  | cons a rest ih =>
    intro i h
    rw [mapWithIdx, h i a (List.mem_cons_self a rest),
      ih (i + 1) (fun j b hb => h j b (List.mem_cons_of_mem a hb))]

/-! Claim C10 — `duplicate_block` always returns the empty list. -/

/-- C10: `duplicate_block(start_idx, end_idx, n_copies)` returns the empty
    list for every input, regardless of how many copies it inserts, so every
    caller must re-scan the document to find the copies. -/
theorem duplicate_block_returns_nil (s e n : Nat) (d : Docu) :
    (duplicate_block s e n d).2 = [] := by
  rw [duplicate_block]
  cases paraBodyPos e d <;> rfl

/-! Claim C3 — the orphan cleanup only matches uppercase placeholder names. -/

/-- C3 counterexample: a paragraph whose whole trimmed text is the bare token
    `\x7b\x7bkpi_m3_lot_act\x7d\x7d` (lowercase name) survives the full
    render pipeline, so the no-orphan invariant as claimed is false. -/
theorem no_orphan_counterexample :
    isBareAnyToken (pyStrip (paraText ((docParas (render baseCtx docC3)).getD 0 emptyPara))) = true
    ∧ render baseCtx docC3 = docC3 := by
  constructor <;> decide

theorem noBareUpper_clean (d : Docu) : noBareUpperParas (clean_empty_placeholders d) = true := by
  rw [noBareUpperParas, List.all_eq_true]
  intro el hel
  rw [clean_empty_placeholders, List.mem_filter] at hel
  exact hel.2

/-- C3 amended: after `render` no body paragraph's stripped text matches the
    cleanup pattern `\x7b\x7b[A-Z_0-9]+\x7d\x7d`; a paragraph whose bare
    placeholder uses characters outside `[A-Z_0-9]` may survive. -/
theorem no_orphan_amended (ctx : Context) (d : Docu) :
    noBareUpperParas (render ctx d) = true := by
  rw [render]
  exact noBareUpper_clean _

/-! Claim C2 — the marker cleanup removes exact marker paragraphs only. -/

/-- C2 counterexample: a paragraph whose text contains `[[START_LOT]]` inside
    surrounding text survives the full render pipeline, so the no-marker
    invariant as claimed (no paragraph text *contains* marker syntax) fails. -/
theorem no_marker_counterexample :
    strHasSub startLotM (paraText ((docParas (render baseCtx docC2)).getD 0 emptyPara)) = true
    ∧ render baseCtx docC2 = docC2 := by
  constructor <;> decide

theorem noMarker_clean_all (d : Docu) : noMarkerParas (clean_all_markers d) = true := by
  rw [noMarkerParas, List.all_eq_true]
  intro el hel
  rw [clean_all_markers] at hel
  rw [remove_block_markers, List.mem_filter] at hel
  obtain ⟨hel, h1⟩ := hel
  rw [remove_block_markers, List.mem_filter] at hel
  obtain ⟨hel, h2⟩ := hel
  rw [remove_block_markers, List.mem_filter] at hel
  obtain ⟨hel, h3⟩ := hel
  rw [remove_block_markers, List.mem_filter] at hel
  obtain ⟨_, h4⟩ := hel
  cases el with
  | table t => rfl
  | para p =>
    simp only [Bool.not_eq_true', Bool.or_eq_false_iff] at h1 h2 h3 h4
    simp only [isMarkerPara, allMarkers, Bool.not_eq_true', List.any_eq_false]
    intro m hm
    simp only [List.mem_cons, List.not_mem_nil, or_false] at hm
    rcases hm with h | h | h | h | h | h | h | h <;> subst h
    · simp [h1.1]
    · simp [h1.2]
    · simp [h2.1]
    · simp [h2.2]
    · simp [h3.1]
    · simp [h3.2]
    · simp [h4.1]
    · simp [h4.2]

theorem isMarkerPara_clearAndImage (img : Nat) (p : Paragraph) :
    isMarkerPara (clearAndImage img p) = false := rfl

theorem noMarker_setParaAt_aux (img : Nat) (i : Nat) :
    ∀ (d : Docu) (j : Nat), noMarkerParas d = true →
      noMarkerParas (mapParasIdx (fun k p => if k = i then clearAndImage img p else p) j d) = true := by
  intro d
  induction d with
  | nil => intro j _; rfl
  | cons el rest ih =>
    intro j h
    rw [noMarkerParas, List.all_eq_true] at h
    have hrest : noMarkerParas rest = true := by
      rw [noMarkerParas, List.all_eq_true]
      intro x hx
      exact h x (List.mem_cons_of_mem el hx)
    cases el with
    | para p =>
      rw [mapParasIdx, noMarkerParas, List.all_eq_true]
      intro x hx
      rcases List.mem_cons.mp hx with hx | hx
      · subst hx
        by_cases hj : j = i
        · subst hj
          simp [isMarkerPara_clearAndImage]
        · simp only [if_neg hj]
          exact h _ (List.mem_cons_self _ _)
      · have := ih (j + 1) hrest
        rw [noMarkerParas, List.all_eq_true] at this
        exact this x hx
    | table t =>
      rw [mapParasIdx, noMarkerParas, List.all_eq_true]
      intro x hx
      rcases List.mem_cons.mp hx with hx | hx
      · subst hx; rfl
      · have := ih j hrest
        rw [noMarkerParas, List.all_eq_true] at this
        exact this x hx

theorem noMarker_imageInTables (ph : Str) (img : Nat) :
    ∀ (d : Docu), noMarkerParas d = true → noMarkerParas (imageInTables ph img d) = true := by
  intro d
  induction d with
  | nil => intro _; rfl
  | cons el rest ih =>
    intro h
    rw [noMarkerParas, List.all_eq_true] at h
    have hrest : noMarkerParas rest = true := by
      rw [noMarkerParas, List.all_eq_true]
      intro x hx
      exact h x (List.mem_cons_of_mem el hx)
    cases el with
    | para p =>
      rw [imageInTables, noMarkerParas, List.all_eq_true]
      intro x hx
      rcases List.mem_cons.mp hx with hx | hx
      · subst hx; exact h _ (List.mem_cons_self _ _)
      · have := ih hrest
        rw [noMarkerParas, List.all_eq_true] at this
        exact this x hx
    | table t =>
      rw [imageInTables]
      by_cases hf : (imageFirstInRows ph img t).2 = true
      · rw [if_pos hf, noMarkerParas, List.all_eq_true]
        intro x hx
        rcases List.mem_cons.mp hx with hx | hx
        · subst hx; rfl
        · exact (List.all_eq_true.mp hrest) x hx
      · rw [if_neg hf, noMarkerParas, List.all_eq_true]
        intro x hx
        rcases List.mem_cons.mp hx with hx | hx
        · subst hx; rfl
        · have := ih hrest
          rw [noMarkerParas, List.all_eq_true] at this
          exact this x hx

theorem noMarker_insert_image (ph : Str) (img : Nat) (d : Docu)
    (h : noMarkerParas d = true) : noMarkerParas (insert_image ph img d) = true := by
  rw [insert_image]
  cases findPhAux ph (docParas d) (docParas d).length 0 with
  | some i => exact noMarker_setParaAt_aux img i d 0 h
  | none => exact noMarker_imageInTables ph img d h

theorem noMarker_org_charts (ctx : Context) (d : Docu)
    (h : noMarkerParas d = true) : noMarkerParas (insert_org_charts ctx d) = true := by
  rw [insert_org_charts]
  by_cases hp : ctx.orgResultPresent = true
  · rw [if_pos hp]
    generalize orgChartList ctx = l
    induction l generalizing d with
    | nil => exact h
    | cons pc rest ih =>
      rw [List.foldl_cons]
      cases hc : pc.2 with
      | none => exact ih _ h
      | some img => exact ih _ (noMarker_insert_image pc.1 img d h)
  · rw [if_neg hp]; exact h

theorem noMarker_clean_empty (d : Docu) (h : noMarkerParas d = true) :
    noMarkerParas (clean_empty_placeholders d) = true := by
  rw [noMarkerParas, List.all_eq_true]
  intro el hel
  rw [clean_empty_placeholders, List.mem_filter] at hel
  exact (List.all_eq_true.mp h) el hel.1

/-- C2 amended: after `render` no body paragraph's stripped text *equals* a
    START/END sentinel of any of the four block types; a marker embedded in a
    longer paragraph text is not removed by the cleanup. -/
theorem no_marker_amended (ctx : Context) (d : Docu) :
    noMarkerParas (render ctx d) = true := by
  rw [render]
  exact noMarker_clean_empty _ (noMarker_org_charts ctx _ (noMarker_clean_all _))

/-! Facts about the range-constrained scan. -/

theorem scanAux_some_facts (sM eM : Str) :
    ∀ (L : List Paragraph) (rem i : Nat) (acc : Option Nat) (s e : Nat),
      scanAux sM eM L rem i acc = some (s, e) →
      i ≤ e ∧ e < i + rem ∧ e < i + L.length ∧ (acc = none → i ≤ s ∧ s < e)
        ∧ (∀ a, acc = some a → s = a) := by
  intro L
  induction L with
  | nil => intro rem i acc s e h; cases rem <;> exact absurd h (by simp [scanAux])
  | cons p rest ih =>
    intro rem i acc s e h
    cases rem with
    | zero => exact absurd h (by simp [scanAux])
    | succ r =>
      rw [scanAux] at h
      by_cases h1 : strHasSub sM (pyStrip (paraText p)) = true ∧ acc = none
      · rw [if_pos h1] at h
        obtain ⟨he1, he2, he3, _, hacc⟩ := ih r (i + 1) (some i) s e h
        have hs : s = i := hacc i rfl
        refine ⟨by omega, by omega, by simp; omega, fun _ => ⟨by omega, by omega⟩, ?_⟩
        intro a ha
        rw [h1.2] at ha
        cases ha
      · rw [if_neg h1] at h
        by_cases h2 : strHasSub eM (pyStrip (paraText p)) = true ∧ acc ≠ none
        · rw [if_pos h2] at h
          have hse := Option.some.inj h
          have hs' : acc.getD 0 = s := congrArg Prod.fst hse
          have he' : i = e := congrArg Prod.snd hse
          subst he'
          refine ⟨Nat.le_refl i, by omega, by simp, ?_, ?_⟩
          · intro hn; exact absurd hn h2.2
          · intro a ha; rw [← hs', ha]; rfl
        · rw [if_neg h2] at h
          obtain ⟨he1, he2, he3, hnone, hsome⟩ := ih r (i + 1) acc s e h
          refine ⟨by omega, by omega, by simp; omega, ?_, hsome⟩
          intro hn
          obtain ⟨ha, hb⟩ := hnone hn
          exact ⟨by omega, hb⟩

theorem find_block_in_range_some_facts (sM eM : Str) (lo hi : Nat) (d : Docu) (s e : Nat)
    (h : find_block_in_range sM eM lo hi d = some (s, e)) :
    lo ≤ s ∧ s < e ∧ e < (docParas d).length := by
  rw [find_block_in_range] at h
  obtain ⟨h1, _, h3, h4, _⟩ := scanAux_some_facts sM eM _ _ _ _ _ _ h
  obtain ⟨ha, hb⟩ := h4 rfl
  refine ⟨ha, hb, ?_⟩
  have hlen : ((docParas d).drop lo).length = (docParas d).length - lo := by simp
  omega

/-! Characterization of block deletion. -/

theorem deleteParasRange_past (s e : Nat) :
    ∀ (d : Docu) (i : Nat), e < i → deleteParasRange s e i d = d := by
  intro d
  induction d with
  | nil => intro i _; rfl
  | cons el rest ih =>
    intro i hi
    cases el with
    | para p =>
      rw [deleteParasRange, if_neg (by omega), ih (i + 1) (by omega)]
    | table t => rw [deleteParasRange, ih i hi]

theorem docParas_deleteParasRange_mid (s e : Nat) :
    ∀ (d : Docu) (i : Nat), s < i → i ≤ e + 1 →
      docParas (deleteParasRange s e i d) = (docParas d).drop (e + 1 - i) := by
  intro d
  induction d with
  | nil => intro i _ _; simp [deleteParasRange, docParas]
  | cons el rest ih =>
    intro i h1 h2
    cases el with
    | para p =>
      by_cases hie : i ≤ e
      · rw [deleteParasRange, if_pos ⟨by omega, hie⟩, ih (i + 1) (by omega) (by omega)]
        have : (docParas (Element.para p :: rest)) = p :: docParas rest := rfl
        rw [this]
        have h3 : e + 1 - i = (e + 1 - (i + 1)) + 1 := by omega
        rw [h3, List.drop_succ_cons]
      · have hi : i = e + 1 := by omega
        rw [deleteParasRange, if_neg (by omega), deleteParasRange_past s e rest (i + 1) (by omega)]
        have : (docParas (Element.para p :: rest)) = p :: docParas rest := rfl
        rw [this, hi]
        simp [docParas]
    | table t =>
      rw [deleteParasRange]
      have : docParas (Element.table t :: deleteParasRange s e i rest)
          = docParas (deleteParasRange s e i rest) := rfl
      rw [this, ih i h1 h2]
      rfl

theorem docParas_deleteParasRange (s e : Nat) (hse : s ≤ e) :
    ∀ (d : Docu) (i : Nat), i ≤ s →
      docParas (deleteParasRange s e i d)
        = ((docParas d).take (s - i)) ++ ((docParas d).drop (e + 1 - i)) := by
  intro d
  induction d with
  | nil => intro i _; simp [deleteParasRange, docParas]
  | cons el rest ih =>
    intro i hi
    cases el with
    | para p =>
      have hpp : (docParas (Element.para p :: rest)) = p :: docParas rest := rfl
      by_cases his : i = s
      · rw [deleteParasRange, if_pos ⟨by omega, by omega⟩,
          docParas_deleteParasRange_mid s e rest (i + 1) (by omega) (by omega), hpp]
        rw [show s - i = 0 from by omega]
        have h4 : e + 1 - i = (e + 1 - (i + 1)) + 1 := by omega
        rw [h4, List.take_zero, List.drop_succ_cons, List.nil_append]
      · rw [deleteParasRange, if_neg (by omega), hpp]
        have : docParas (Element.para p :: deleteParasRange s e (i + 1) rest)
            = p :: docParas (deleteParasRange s e (i + 1) rest) := rfl
        rw [this, ih (i + 1) (by omega)]
        have h3 : s - i = (s - (i + 1)) + 1 := by omega
        have h4 : e + 1 - i = (e + 1 - (i + 1)) + 1 := by omega
        rw [h3, h4, List.take_succ_cons, List.drop_succ_cons]
        rfl
    | table t =>
      rw [deleteParasRange]
      have : docParas (Element.table t :: deleteParasRange s e i rest)
          = docParas (deleteParasRange s e i rest) := rfl
      rw [this, ih i hi]
      rfl

theorem docTables_deleteParasRange (s e : Nat) :
    ∀ (d : Docu) (i : Nat), docTables (deleteParasRange s e i d) = docTables d := by
  intro d
  induction d with
  | nil => intro i; rfl
  | cons el rest ih =>
    intro i
    cases el with
    | para p =>
      rw [deleteParasRange]
      by_cases hc : s ≤ i ∧ i ≤ e
      · rw [if_pos hc, ih (i + 1)]; rfl
      · rw [if_neg hc]
        have : docTables (Element.para p :: deleteParasRange s e (i + 1) rest)
            = docTables (deleteParasRange s e (i + 1) rest) := rfl
        rw [this, ih (i + 1)]
        rfl
    | table t =>
      rw [deleteParasRange]
      show t :: docTables (deleteParasRange s e i rest) = t :: docTables rest
      rw [ih i]

/-! Claim C4 — zero-instance deletion. -/

/-- C4 counterexample: with an empty repetition context and the ACTIVITY
    marker pair located at paragraph indices 0 and 1, a table lying strictly
    between the two markers survives the deletion — not every element from
    START to END inclusive is removed. -/
theorem zero_instance_counterexample :
    process_activity_blocks ctxC4 0 1 (("L1").toList) none docC4 = [Element.table rowsC4]
    ∧ docC4 = [Element.para (mkP "[[START_ACTIVITY]]"), Element.table rowsC4,
        Element.para (mkP "[[END_ACTIVITY]]")] := by
  constructor <;> decide

set_option maxHeartbeats 1600000 in
/-- C4 amended: when a rank's repetition context is empty and the marker pair
    is located in the parent range, the orchestrator deletes exactly the
    paragraphs from START to END inclusive and returns at once (the result is
    precisely `delete_block`); paragraphs outside the extent are untouched,
    but table elements inside the extent are not removed. -/
theorem zero_instance_amended (ctx : Context) (tr : Tree) (pid : Str) (ps pe s e : Nat)
    (d : Docu)
    (hHas : ctx.hasLots = true) (hTree : ctx.tree = some tr)
    (hPid : (pid == ("ORG").toList) = false)
    (hActs : tr.lotActivities pid = [])
    (hFind : find_block_in_range startActivityM endActivityM ps pe d = some (s, e)) :
    process_activity_blocks ctx ps pe pid none d = delete_block s e d
    ∧ docParas (delete_block s e d) = (docParas d).take s ++ (docParas d).drop (e + 1)
    ∧ docTables (delete_block s e d) = docTables d := by
  obtain ⟨-, hse, -⟩ := find_block_in_range_some_facts _ _ _ _ _ _ _ hFind
  refine ⟨?_, ?_, docTables_deleteParasRange s e d 0⟩
  · rw [process_activity_blocks]
    simp only [hHas, hPid, Bool.not_false, Bool.and_self, if_true]
    simp only [hTree, treeOr, hActs]
    rw [show sortStrs ([] : List Str) = [] from rfl]
    simp only [List.isEmpty_nil, if_true]
    rw [hFind]
  · have := docParas_deleteParasRange s e (by omega) d 0 (Nat.zero_le s)
    simpa using this

/-- C4 amended, witness at the concrete empty-context input. -/
theorem zero_instance_amended_witness :
    process_activity_blocks ctxC4 0 1 (("L1").toList) none docC4 = delete_block 0 1 docC4
    ∧ docParas (delete_block 0 1 docC4)
        = (docParas docC4).take 0 ++ (docParas docC4).drop 2
    ∧ docTables (delete_block 0 1 docC4) = docTables docC4 :=
  zero_instance_amended ctxC4 treeC4 (("L1").toList) 0 1 0 1 docC4 rfl rfl (by decide)
    rfl (by decide)

/-! Claim C6 — the whole-document locator records the last START, not the
    first. -/

/-- C6 counterexample: on a document whose paragraphs are START, START, END,
    the first START of the type sits at index 0, yet `find_block` returns the
    pair `(1, 2)` — it records the most recent START seen before the END, not
    the first one. -/
theorem locator_counterexample :
    find_block startLotM endLotM docC6 = some (1, 2)
    ∧ strHasSub startLotM (pyStrip (paraText ((docParas docC6).getD 0 emptyPara))) = true := by
  constructor <;> decide

/-! Claim C9 — `_insert_entity_charts` ignores its block bounds. -/

/-- C9: evaluating the entity-chart injector at a two-instance document shows
    the bug: processing the instance whose extent is `[3, 5]` embeds that
    instance's chart in the sibling instance's anchor paragraph at index 1
    (the document-global first match), while the anchor inside `[3, 5]`
    keeps no image.  The claimed in-extent scoping is the spec's intent (the
    function even receives the bounds and ignores them), so this is a code
    bug. -/
theorem entity_charts_outside_extent :
    (docParas (insert_entity_charts ctxC9 3 5 (("LOT_L1_EU").toList) docC9)).map
        (fun p => p.images) = [[], [7], [], [], [], []]
    ∧ strHasSub chartScopeEntTok
        (paraText ((docParas docC9).getD 4 emptyPara)) = true := by
  constructor <;> decide

/-! Characterization of `replace_in_block` on the paragraph sequence. -/

theorem docParas_tableStage (reps : List (Str × Str)) (a b : Nat) :
    ∀ (d : Docu) (i : Nat), docParas (mapWithIdx (tableStageF reps a b) i d) = docParas d := by
  intro d
  induction d with
  | nil => intro i; rfl
  | cons el rest ih =>
    intro i
    cases el with
    | para p =>
      show docParas (Element.para p :: mapWithIdx (tableStageF reps a b) (i + 1) rest)
        = docParas (Element.para p :: rest)
      show p :: docParas (mapWithIdx (tableStageF reps a b) (i + 1) rest)
        = p :: docParas rest
      rw [ih (i + 1)]
    | table t =>
      show docParas (tableStageF reps a b i (Element.table t)
          :: mapWithIdx (tableStageF reps a b) (i + 1) rest)
        = docParas (Element.table t :: rest)
      rw [tableStageF]
      by_cases hc : a ≤ i ∧ i ≤ b
      · rw [if_pos hc]
        show docParas (mapWithIdx (tableStageF reps a b) (i + 1) rest) = docParas rest
        exact ih (i + 1)
      · rw [if_neg hc]
        show docParas (mapWithIdx (tableStageF reps a b) (i + 1) rest) = docParas rest
        exact ih (i + 1)

theorem docParas_replace (reps : List (Str × Str)) (s e : Nat) (d : Docu) :
    docParas (replace_in_block reps s e d)
      = mapWithIdx (fun i p => if s ≤ i ∧ i ≤ e then blockParaSubst reps p else p) 0
          (docParas d) := by
  simp only [replace_in_block]
  by_cases hn : s ≥ (docParas d).length ∨ e ≥ (docParas d).length
  · rw [if_pos hn, docParas_mapParasIdx]
  · rw [if_neg hn, docParas_tableStage, docParas_mapParasIdx]

theorem flatten_blank_runs (l : List Str) : (l.map (fun _ => ([] : Str))).flatten = [] := by
  induction l with
  | nil => rfl
  | cons a rest ih => simpa using ih

theorem paraText_writeBack (t : Str) (runs : List Str) : (writeBackRuns t runs).flatten = t := by
  cases runs with
  | nil => simp [writeBackRuns]
  | cons r rest => simp [writeBackRuns, flatten_blank_runs]

/-! Claim C7 — the resolver's write-back discipline. -/

/-- C7 counterexample: with the dict mapping `ENTITY_TOP_POSTES_LIST` to
    itself, the paragraph's concatenated text is unchanged by the map, yet
    the paragraph is modified — its alignment is forced LEFT.  So "a
    paragraph whose concatenated text is unchanged is left entirely
    unmodified" fails. -/
theorem resolver_counterexample :
    (docParas (replace_in_block repsC7 0 0 docC7)).getD 0 emptyPara
      ≠ (docParas docC7).getD 0 emptyPara
    ∧ applyReps repsC7 (paraText ((docParas docC7).getD 0 emptyPara))
        = paraText ((docParas docC7).getD 0 emptyPara) := by
  constructor <;> decide

/-- C7 amended: for every paragraph of the extent, the resolver concatenates
    the run texts, substitutes every key in dict order and, only when the
    result differs, writes the whole string into the first run and blanks the
    others; when the result is unchanged the runs and images stay untouched —
    but the paragraph's alignment is still forced LEFT whenever the dict
    contains the `ENTITY_TOP_POSTES_LIST` key and the original text contains
    that token, even if the text does not change. -/
theorem resolver_writeback (reps : List (Str × Str)) (s e : Nat) (d : Docu) (i : Nat)
    (h1 : s ≤ i) (h2 : i ≤ e) (h3 : i < (docParas d).length) :
    ((applyReps reps (paraText ((docParas d).getD i emptyPara))
        ≠ paraText ((docParas d).getD i emptyPara)) →
      ((docParas (replace_in_block reps s e d)).getD i emptyPara).runs
          = writeBackRuns (applyReps reps (paraText ((docParas d).getD i emptyPara)))
              ((docParas d).getD i emptyPara).runs
      ∧ paraText ((docParas (replace_in_block reps s e d)).getD i emptyPara)
          = applyReps reps (paraText ((docParas d).getD i emptyPara)))
    ∧ ((applyReps reps (paraText ((docParas d).getD i emptyPara))
        = paraText ((docParas d).getD i emptyPara)) →
      ((docParas (replace_in_block reps s e d)).getD i emptyPara).runs
          = ((docParas d).getD i emptyPara).runs
      ∧ ((docParas (replace_in_block reps s e d)).getD i emptyPara).images
          = ((docParas d).getD i emptyPara).images)
    ∧ ((docParas (replace_in_block reps s e d)).getD i emptyPara).align
        = (if (∃ kv ∈ reps, kv.1 = entityTopTok)
              ∧ strHasSub entityTopTok (paraText ((docParas d).getD i emptyPara)) = true
           then some 0 else ((docParas d).getD i emptyPara).align)
    ∧ (docParas (replace_in_block reps s e d)).length = (docParas d).length := by
  have key : (docParas (replace_in_block reps s e d)).getD i emptyPara
      = blockParaSubst reps ((docParas d).getD i emptyPara) := by
    rw [docParas_replace, mapWithIdx_getD _ _ _ 0 i h3]
    have : (0 : Nat) + i = i := by omega
    rw [this, if_pos ⟨h1, h2⟩]
  rw [key]
  rw [blockParaSubst]
  by_cases ht : applyReps reps (paraText ((docParas d).getD i emptyPara))
      = paraText ((docParas d).getD i emptyPara)
  · rw [if_neg (by simpa using ht)]
    refine ⟨fun hne => absurd ht hne, fun _ => ⟨rfl, rfl⟩, rfl, ?_⟩
    rw [docParas_replace, length_mapWithIdx]
  · rw [if_pos (by simpa using ht)]
    refine ⟨fun _ => ⟨rfl, ?_⟩, fun heq => absurd heq ht, rfl, ?_⟩
    · exact paraText_writeBack _ _
    · rw [docParas_replace, length_mapWithIdx]

/-- C7 amended, witness: a concrete changed paragraph is rewritten into its
    first run. -/
theorem resolver_writeback_witness :
    ((applyReps repsC8w (paraText ((docParas docC8).getD 0 emptyPara))
        ≠ paraText ((docParas docC8).getD 0 emptyPara)) →
      ((docParas (replace_in_block repsC8w 0 0 docC8)).getD 0 emptyPara).runs
          = writeBackRuns (applyReps repsC8w (paraText ((docParas docC8).getD 0 emptyPara)))
              ((docParas docC8).getD 0 emptyPara).runs
      ∧ paraText ((docParas (replace_in_block repsC8w 0 0 docC8)).getD 0 emptyPara)
          = applyReps repsC8w (paraText ((docParas docC8).getD 0 emptyPara)))
    ∧ ((applyReps repsC8w (paraText ((docParas docC8).getD 0 emptyPara))
        = paraText ((docParas docC8).getD 0 emptyPara)) →
      ((docParas (replace_in_block repsC8w 0 0 docC8)).getD 0 emptyPara).runs
          = ((docParas docC8).getD 0 emptyPara).runs
      ∧ ((docParas (replace_in_block repsC8w 0 0 docC8)).getD 0 emptyPara).images
          = ((docParas docC8).getD 0 emptyPara).images)
    ∧ ((docParas (replace_in_block repsC8w 0 0 docC8)).getD 0 emptyPara).align
        = (if (∃ kv ∈ repsC8w, kv.1 = entityTopTok)
              ∧ strHasSub entityTopTok (paraText ((docParas docC8).getD 0 emptyPara)) = true
           then some 0 else ((docParas docC8).getD 0 emptyPara).align)
    ∧ (docParas (replace_in_block repsC8w 0 0 docC8)).length = (docParas docC8).length :=
  resolver_writeback repsC8w 0 0 docC8 0 (Nat.le_refl 0) (Nat.le_refl 0) (by decide)

/-! Claim C8 — idempotence of resolution. -/

theorem strNoKeys_forall (reps : List (Str × Str)) (t : Str) (h : strNoKeys reps t = true) :
    ∀ kv ∈ reps, strHasSub kv.1 t = false := by
  rw [strNoKeys, List.all_eq_true] at h
  intro kv hkv
  have := h kv hkv
  simpa using this

theorem applyReps_id (reps : List (Str × Str)) :
    ∀ (t : Str), (∀ kv ∈ reps, strHasSub kv.1 t = false) → applyReps reps t = t := by
  induction reps with
  | nil => intro t _; rfl
  | cons kv rest ih =>
    intro t h
    have h0 := h kv (List.mem_cons_self kv rest)
    have hstep : applyReps (kv :: rest) t = applyReps rest (pyReplace kv.1 kv.2 t) := rfl
    rw [hstep, pyReplace_of_not_sub kv.1 kv.2 t h0]
    exact ih t (fun kv2 hkv2 => h kv2 (List.mem_cons_of_mem kv hkv2))

theorem blockParaSubst_id (reps : List (Str × Str)) (p : Paragraph)
    (h : strNoKeys reps (paraText p) = true) : blockParaSubst reps p = p := by
  have hall := strNoKeys_forall reps (paraText p) h
  have ht : applyReps reps (paraText p) = paraText p := applyReps_id reps _ hall
  rw [blockParaSubst, if_neg (by simpa using ht)]
  have hal : ¬((∃ kv ∈ reps, kv.1 = entityTopTok)
      ∧ strHasSub entityTopTok (paraText p) = true) := by
    rintro ⟨⟨kv, hkv, hk⟩, hsub⟩
    have := hall kv hkv
    rw [hk] at this
    rw [this] at hsub
    cases hsub
  rw [if_neg hal]

theorem cellParaSubst_id (reps : List (Str × Str)) (p : Paragraph)
    (h : strNoKeys reps (paraText p) = true) : cellParaSubst reps p = p := by
  have hall := strNoKeys_forall reps (paraText p) h
  have ht : applyReps reps (paraText p) = paraText p := applyReps_id reps _ hall
  rw [cellParaSubst, if_neg (by simpa using ht)]

theorem map_id_of_mem {α : Type} (l : List α) (f : α → α) (h : ∀ a ∈ l, f a = a) :
    l.map f = l := by
  induction l with
  | nil => rfl
  | cons a rest ih =>
    rw [List.map_cons, h a (List.mem_cons_self a rest),
      ih (fun b hb => h b (List.mem_cons_of_mem a hb))]

theorem substTable_id (reps : List (Str × Str)) (rows : TableRows)
    (h : ∀ row ∈ rows, ∀ cell ∈ row, ∀ p ∈ cell, strNoKeys reps (paraText p) = true) :
    substTable reps rows = rows := by
  rw [substTable]
  apply map_id_of_mem
  intro row hrow
  apply map_id_of_mem
  intro cell hcell
  apply map_id_of_mem
  intro p hp
  exact cellParaSubst_id reps p (h row hrow cell hcell p hp)

theorem mapParasIdx_eq_self (f : Nat → Paragraph → Paragraph) :
    ∀ (d : Docu) (j : Nat),
      (∀ i, i < (docParas d).length →
        f (j + i) ((docParas d).getD i emptyPara) = (docParas d).getD i emptyPara) →
      mapParasIdx f j d = d := by
  intro d
  induction d with
  | nil => intro j _; rfl
  | cons el rest ih =>
    intro j h
    cases el with
    | para p =>
      have hd : docParas (Element.para p :: rest) = p :: docParas rest := rfl
      have h0 := h 0 (by rw [hd]; simp)
      rw [hd] at h0
      simp only [List.getD_cons_zero, Nat.add_zero] at h0
      rw [mapParasIdx, h0, ih (j + 1)]
      intro i hi
      have hlt : i + 1 < (docParas (Element.para p :: rest)).length := by
        rw [hd]; simp; omega
      have := h (i + 1) hlt
      rw [hd] at this
      simp only [List.getD_cons_succ] at this
      have harith : j + (i + 1) = j + 1 + i := by omega
      rw [harith] at this
      exact this
    | table t =>
      have hd : docParas (Element.table t :: rest) = docParas rest := rfl
      rw [mapParasIdx, ih j]
      intro i hi
      have := h i (by rw [hd]; exact hi)
      rw [hd] at this
      exact this

theorem table_mem_docTables (t : TableRows) (d : Docu) (h : Element.table t ∈ d) :
    t ∈ docTables d := by
  rw [docTables]
  exact List.mem_filterMap.mpr ⟨Element.table t, h, rfl⟩

/-- A document in which no key of the dict occurs — neither in the extent's
    paragraphs nor in any table — is a fixed point of `replace_in_block`. -/
theorem replace_fixpoint (reps : List (Str × Str)) (s e : Nat) (d1 : Docu)
    (hp : ∀ i, s ≤ i → i ≤ e → i < (docParas d1).length →
      strNoKeys reps (paraText ((docParas d1).getD i emptyPara)) = true)
    (htab : ∀ rows ∈ docTables d1, ∀ row ∈ rows, ∀ cell ∈ row, ∀ p ∈ cell,
      strNoKeys reps (paraText p) = true) :
    replace_in_block reps s e d1 = d1 := by
  have hbody : mapParasIdx (fun i p => if s ≤ i ∧ i ≤ e then blockParaSubst reps p else p) 0 d1
      = d1 := by
    apply mapParasIdx_eq_self
    intro i hi
    have hz : (0 : Nat) + i = i := by omega
    rw [hz]
    by_cases hin : s ≤ i ∧ i ≤ e
    · rw [if_pos hin]
      exact blockParaSubst_id reps _ (hp i hin.1 hin.2 hi)
    · rw [if_neg hin]
  simp only [replace_in_block]
  rw [hbody]
  by_cases hn : s ≥ (docParas d1).length ∨ e ≥ (docParas d1).length
  · rw [if_pos hn]
  · rw [if_neg hn]
    apply mapWithIdx_id_of_mem
    intro q el hel
    cases el with
    | para p => rfl
    | table rows =>
      rw [tableStageF]
      by_cases hq : (paraBodyPos s d1).getD 0 ≤ q ∧ q ≤ (paraBodyPos e d1).getD 0
      · rw [if_pos hq, substTable_id reps rows (htab rows (table_mem_docTables rows d1 hel))]
      · rw [if_neg hq]

/-- C8 counterexample: with the dict `B → X, A → B` (the value of one key
    reintroduces another key), resolving the same one-paragraph extent twice
    differs from resolving it once — the claimed unconditional idempotence is
    false. -/
theorem idempotence_counterexample :
    replace_in_block repsC8 0 0 (replace_in_block repsC8 0 0 docC8)
      ≠ replace_in_block repsC8 0 0 docC8 := by
  decide

/-- C8 amended: resolving the same map a second time is a no-op provided no
    key of the map still occurs after the first application — in the extent's
    paragraph texts, nor in any table cell text of the document ("placeholders
    that no longer appear are simply not found"); without that proviso
    substitution values that recreate keys break idempotence. -/
theorem idempotent_resolution (reps : List (Str × Str)) (s e : Nat) (d : Docu)
    (hp : ∀ i, s ≤ i → i ≤ e → i < (docParas (replace_in_block reps s e d)).length →
      strNoKeys reps
        (paraText ((docParas (replace_in_block reps s e d)).getD i emptyPara)) = true)
    (htab : ∀ rows ∈ docTables (replace_in_block reps s e d), ∀ row ∈ rows, ∀ cell ∈ row,
      ∀ p ∈ cell, strNoKeys reps (paraText p) = true) :
    replace_in_block reps s e (replace_in_block reps s e d) = replace_in_block reps s e d :=
  replace_fixpoint reps s e (replace_in_block reps s e d) hp htab

/-- C8 amended, witness at a concrete extent where the first application
    removes the only key. -/
theorem idempotent_resolution_witness :
    replace_in_block repsC8w 0 0 (replace_in_block repsC8w 0 0 docC8)
      = replace_in_block repsC8w 0 0 docC8 :=
  idempotent_resolution repsC8w 0 0 docC8
    (by
      intro i _ h2 _
      have hi : i = 0 := by omega
      subst hi
      decide)
    (by
      intro rows hr
      rw [show docTables (replace_in_block repsC8w 0 0 docC8) = [] from by decide] at hr
      exact absurd hr (List.not_mem_nil rows))

/-! Locating the single LOT pair of a canonical template. -/

theorem findBlockAux_skip_none (sM eM : Str) :
    ∀ (L1 L2 : List Paragraph) (i : Nat),
      (∀ p ∈ L1, strHasSub sM (pyStrip (paraText p)) = false) →
      findBlockAux sM eM (L1 ++ L2) i none = findBlockAux sM eM L2 (i + L1.length) none := by
  intro L1
  induction L1 with
  | nil => intro L2 i _; simp
  | cons p rest ih =>
    intro L2 i h
    have hp := h p (List.mem_cons_self p rest)
    show findBlockAux sM eM (p :: (rest ++ L2)) i none = _
    rw [findBlockAux]
    rw [if_neg (by simp [hp])]
    rw [if_neg (by simp)]
    rw [ih L2 (i + 1) (fun q hq => h q (List.mem_cons_of_mem p hq))]
    congr 1
    simp
    omega

theorem findBlockAux_skip_some (sM eM : Str) :
    ∀ (L1 L2 : List Paragraph) (i a : Nat),
      (∀ p ∈ L1, strHasSub sM (pyStrip (paraText p)) = false
        ∧ strHasSub eM (pyStrip (paraText p)) = false) →
      findBlockAux sM eM (L1 ++ L2) i (some a) = findBlockAux sM eM L2 (i + L1.length) (some a) := by
  intro L1
  induction L1 with
  | nil => intro L2 i a _; simp
  | cons p rest ih =>
    intro L2 i a h
    have hp := h p (List.mem_cons_self p rest)
    show findBlockAux sM eM (p :: (rest ++ L2)) i (some a) = _
    rw [findBlockAux]
    rw [if_neg (by simp [hp.1])]
    rw [if_neg (by simp [hp.2])]
    rw [ih L2 (i + 1) a (fun q hq => h q (List.mem_cons_of_mem p hq))]
    congr 1
    simp
    omega

theorem findBlockAux_start (sM eM : Str) (p : Paragraph) (L : List Paragraph) (i : Nat)
    (acc : Option Nat) (hs : strHasSub sM (pyStrip (paraText p)) = true) :
    findBlockAux sM eM (p :: L) i acc = findBlockAux sM eM L (i + 1) (some i) := by
  rw [findBlockAux, if_pos (by simp [hs])]

theorem findBlockAux_end (sM eM : Str) (p : Paragraph) (L : List Paragraph) (i a : Nat)
    (hs : strHasSub sM (pyStrip (paraText p)) = false)
    (he : strHasSub eM (pyStrip (paraText p)) = true) :
    findBlockAux sM eM (p :: L) i (some a) = some (a, i) := by
  rw [findBlockAux, if_neg (by simp [hs]), if_pos (by simp [he])]
  rfl

theorem noBk_no_marker_sub (m t : Str) (hm : '[' ∈ m) (ht : noBk t = true) :
    strHasSub m (pyStrip t) = false :=
  not_hasSub_of_noBk m (pyStrip t) hm (noBk_pyStrip t ht)

theorem find_block_template (pre mid suf : List Paragraph)
    (hpre : ∀ p ∈ pre, noBk (paraText p) = true)
    (hmid : ∀ p ∈ mid, noBk (paraText p) = true) :
    find_block startLotM endLotM ((pre ++ lotBlk mid ++ suf).map Element.para)
      = some (pre.length, pre.length + mid.length + 1) := by
  rw [find_block, docParas_map_para]
  rw [lotBlk]
  have hshape : pre ++ (startLotP :: mid ++ [endLotP]) ++ suf
      = pre ++ (startLotP :: (mid ++ (endLotP :: suf))) := by simp
  rw [hshape]
  rw [findBlockAux_skip_none startLotM endLotM pre _ 0
    (fun p hp => noBk_no_marker_sub _ _ (by decide) (hpre p hp))]
  rw [findBlockAux_start startLotM endLotM startLotP _ _ _ (by decide)]
  rw [findBlockAux_skip_some startLotM endLotM mid (endLotP :: suf) _ _
    (fun p hp => ⟨noBk_no_marker_sub _ _ (by decide) (hmid p hp),
      noBk_no_marker_sub _ _ (by decide) (hmid p hp)⟩)]
  rw [findBlockAux_end startLotM endLotM endLotP suf _ _ (by decide) (by decide)]
  simp only [Option.some.injEq, Prod.mk.injEq]
  omega

/-! Behaviour of the range scan over canonical instance blocks. -/

theorem scanAux_skip_none (sM eM : Str) :
    ∀ (L1 L2 : List Paragraph) (i : Nat),
      (∀ p ∈ L1, strHasSub sM (pyStrip (paraText p)) = false) →
      scanAux sM eM (L1 ++ L2) (L1.length + L2.length) i none
        = scanAux sM eM L2 L2.length (i + L1.length) none := by
  intro L1
  induction L1 with
  | nil => intro L2 i _; simp
  | cons p rest ih =>
    intro L2 i h
    have hp := h p (List.mem_cons_self p rest)
    show scanAux sM eM (p :: (rest ++ L2)) (rest.length + 1 + L2.length) i none = _
    have harith : rest.length + 1 + L2.length = (rest.length + L2.length) + 1 := by omega
    rw [harith, scanAux]
    rw [if_neg (by simp [hp])]
    rw [if_neg (by simp)]
    rw [ih L2 (i + 1) (fun q hq => h q (List.mem_cons_of_mem p hq))]
    congr 1
    simp
    omega

theorem scanAux_skip_some (sM eM : Str) :
    ∀ (L1 L2 : List Paragraph) (i a : Nat),
      (∀ p ∈ L1, strHasSub eM (pyStrip (paraText p)) = false) →
      scanAux sM eM (L1 ++ L2) (L1.length + L2.length) i (some a)
        = scanAux sM eM L2 L2.length (i + L1.length) (some a) := by
  intro L1
  induction L1 with
  | nil => intro L2 i a _; simp
  | cons p rest ih =>
    intro L2 i a h
    have hp := h p (List.mem_cons_self p rest)
    show scanAux sM eM (p :: (rest ++ L2)) (rest.length + 1 + L2.length) i (some a) = _
    have harith : rest.length + 1 + L2.length = (rest.length + L2.length) + 1 := by omega
    rw [harith, scanAux]
    rw [if_neg (by simp)]
    rw [if_neg (by simp [hp])]
    rw [ih L2 (i + 1) a (fun q hq => h q (List.mem_cons_of_mem p hq))]
    congr 1
    simp
    omega

theorem scanAux_start (sM eM : Str) (p : Paragraph) (L : List Paragraph) (i : Nat)
    (hs : strHasSub sM (pyStrip (paraText p)) = true) :
    scanAux sM eM (p :: L) (L.length + 1) i none = scanAux sM eM L L.length (i + 1) (some i) := by
  rw [scanAux, if_pos (by simp [hs])]

theorem scanAux_end (sM eM : Str) (p : Paragraph) (L : List Paragraph) (i a : Nat)
    (he : strHasSub eM (pyStrip (paraText p)) = true) :
    scanAux sM eM (p :: L) (L.length + 1) i (some a) = some (a, i) := by
  rw [scanAux, if_neg (by simp), if_pos (by simp [he])]
  rfl

theorem scanAux_none_of_no_start (sM eM : Str) :
    ∀ (L : List Paragraph) (rem i : Nat),
      (∀ p ∈ L, strHasSub sM (pyStrip (paraText p)) = false) →
      scanAux sM eM L rem i none = none := by
  intro L
  induction L with
  | nil => intro rem i _; cases rem <;> rfl
  | cons p rest ih =>
    intro rem i h
    cases rem with
    | zero => rfl
    | succ r =>
      have hp := h p (List.mem_cons_self p rest)
      rw [scanAux, if_neg (by simp [hp]), if_neg (by simp)]
      exact ih r (i + 1) (fun q hq => h q (List.mem_cons_of_mem p hq))

theorem scanAux_lotBlock (ms rest : List Paragraph) (c : Nat)
    (hms : ∀ p ∈ ms, noBk (paraText p) = true) :
    scanAux startLotM endLotM (lotBlk ms ++ rest) ((lotBlk ms ++ rest)).length c none
      = some (c, c + ms.length + 1) := by
  have hsh : lotBlk ms ++ rest = startLotP :: (ms ++ ([endLotP] ++ rest)) := by
    rw [lotBlk]; simp
  rw [hsh]
  have hlen : (startLotP :: (ms ++ ([endLotP] ++ rest))).length
      = (ms ++ ([endLotP] ++ rest)).length + 1 := by simp
  rw [hlen]
  rw [scanAux_start startLotM endLotM startLotP _ c (by decide)]
  rw [List.length_append]
  rw [scanAux_skip_some startLotM endLotM ms ([endLotP] ++ rest) (c + 1) c
    (fun p hp => noBk_no_marker_sub _ _ (by decide) (hms p hp))]
  rw [show ([endLotP] ++ rest) = endLotP :: rest from by simp]
  rw [show (endLotP :: rest).length = rest.length + 1 from by simp]
  rw [scanAux_end startLotM endLotM endLotP rest _ c (by decide)]
  simp only [Option.some.injEq, Prod.mk.injEq]
  exact ⟨trivial, by omega⟩

theorem length_flatten_replicate {α : Type} (n : Nat) (l : List α) :
    ((List.replicate n l).flatten).length = n * l.length := by
  induction n with
  | zero => simp
  | succ m ih =>
    rw [List.replicate_succ, List.flatten_cons, List.length_append, ih]
    ring

theorem length_flatten_blocks (mids : List (List Paragraph)) (L : Nat)
    (h : ∀ ms ∈ mids, ms.length = L) :
    ((mids.map lotBlk).flatten).length = mids.length * (L + 2) := by
  induction mids with
  | nil => simp
  | cons ms rest ih =>
    rw [List.map_cons, List.flatten_cons, List.length_append,
      ih (fun x hx => h x (List.mem_cons_of_mem ms hx))]
    have : (lotBlk ms).length = L + 2 := by
      rw [lotBlk]
      simp [h ms (List.mem_cons_self ms rest)]
    rw [this]
    simp
    ring

theorem lotSpans_cons (c L n : Nat) :
    (c, c + L + 1) :: lotSpans (c + (L + 2)) L n = lotSpans c L (n + 1) := by
  rw [lotSpans, lotSpans, List.range_succ_eq_map, List.map_cons, List.map_map]
  congr 1
  · simp
  · apply List.map_congr_left
    intro k _
    simp only [Function.comp_apply, Nat.succ_eq_add_one, Prod.mk.injEq]
    constructor <;> ring

theorem findAllAux_lot (mids : List (List Paragraph)) (L : Nat) :
    ∀ (X suf : List Paragraph) (c fuel : Nat),
      c ≤ X.length →
      (∀ p ∈ X.drop c, noBk (paraText p) = true) →
      (∀ ms ∈ mids, ms.length = L) →
      (∀ ms ∈ mids, ∀ p ∈ ms, noBk (paraText p) = true) →
      (∀ p ∈ suf, noBk (paraText p) = true) →
      mids.length + 1 ≤ fuel →
      findAllAux startLotM endLotM (X ++ (mids.map lotBlk).flatten ++ suf)
          (X ++ (mids.map lotBlk).flatten ++ suf).length
          (X ++ (mids.map lotBlk).flatten ++ suf).length fuel c
        = lotSpans X.length L mids.length := by
  induction mids with
  | nil =>
    intro X suf c fuel hc hXtail _ _ hsuf hfuel
    cases fuel with
    | zero => omega
    | succ f =>
      rw [findAllAux]
      have hsh : X ++ (List.map lotBlk []).flatten ++ suf = X ++ suf := by simp
      by_cases hlt : c < (X ++ (List.map lotBlk []).flatten ++ suf).length
      · rw [if_pos ⟨hlt, hlt⟩]
        have hdrop : (X ++ (List.map lotBlk []).flatten ++ suf).drop c = X.drop c ++ suf := by
          rw [hsh]
          exact List.drop_append_of_le_length hc
        rw [hdrop]
        have hnostart : ∀ p ∈ X.drop c ++ suf,
            strHasSub startLotM (pyStrip (paraText p)) = false := by
          intro p hp
          rcases List.mem_append.mp hp with hp | hp
          · exact noBk_no_marker_sub _ _ (by decide) (hXtail p hp)
          · exact noBk_no_marker_sub _ _ (by decide) (hsuf p hp)
        rw [scanAux_none_of_no_start startLotM endLotM _ _ c hnostart]
        rfl
      · rw [if_neg (fun hcc => hlt hcc.1)]
        rfl
  | cons ms rest ih =>
    intro X suf c fuel hc hXtail hlen hms hsuf hfuel
    cases fuel with
    | zero => omega
    | succ f =>
      have hmsL : ms.length = L := hlen ms (List.mem_cons_self ms rest)
      have hblkL : (lotBlk ms).length = L + 2 := by rw [lotBlk]; simp [hmsL]
      have hshape : X ++ (List.map lotBlk (ms :: rest)).flatten ++ suf
          = X ++ (lotBlk ms ++ ((rest.map lotBlk).flatten ++ suf)) := by
        simp
      have hlenps : (X ++ (List.map lotBlk (ms :: rest)).flatten ++ suf).length
          = X.length + (L + 2) + ((rest.map lotBlk).flatten ++ suf).length := by
        rw [hshape]
        simp [hblkL]
        omega
      rw [findAllAux]
      rw [if_pos (by constructor <;> (rw [hlenps]; omega))]
      have hdrop : (X ++ (List.map lotBlk (ms :: rest)).flatten ++ suf).drop c
          = X.drop c ++ (lotBlk ms ++ ((rest.map lotBlk).flatten ++ suf)) := by
        rw [hshape]
        exact List.drop_append_of_le_length hc
      rw [hdrop]
      have hrem : (X ++ (List.map lotBlk (ms :: rest)).flatten ++ suf).length - c
          = (X.drop c).length + (lotBlk ms ++ ((rest.map lotBlk).flatten ++ suf)).length := by
        rw [hlenps]
        simp [hblkL]
        omega
      rw [hrem]
      rw [scanAux_skip_none startLotM endLotM (X.drop c) _ c
        (fun p hp => noBk_no_marker_sub _ _ (by decide) (hXtail p hp))]
      have hcx : c + (X.drop c).length = X.length := by
        simp
        omega
      rw [hcx]
      rw [scanAux_lotBlock ms _ X.length (hms ms (List.mem_cons_self ms rest))]
      dsimp only
      have hrec := ih (X ++ lotBlk ms) suf (X.length + (L + 2)) f
        (by rw [List.length_append, hblkL])
        (by
          intro p hp
          rw [show X.length + (L + 2) = (X ++ lotBlk ms).length from by
            rw [List.length_append, hblkL]] at hp
          rw [List.drop_length] at hp
          exact absurd hp (List.not_mem_nil p))
        (fun x hx => hlen x (List.mem_cons_of_mem ms hx))
        (fun x hx => hms x (List.mem_cons_of_mem ms hx))
        hsuf
        (by simp at hfuel; try omega)
      have hshape2 : (X ++ lotBlk ms) ++ (rest.map lotBlk).flatten ++ suf
          = X ++ ((ms :: rest).map lotBlk).flatten ++ suf := by simp
      rw [hshape2] at hrec
      have hXblk : (X ++ lotBlk ms).length = X.length + (L + 2) := by
        rw [List.length_append, hblkL]
      rw [hXblk] at hrec
      rw [show X.length + ms.length + 1 + 1 = X.length + (L + 2) from by omega]
      rw [hrec]
      rw [show X.length + ms.length + 1 = X.length + L + 1 from by omega]
      rw [show (ms :: rest).length = rest.length + 1 from by simp]
      exact lotSpans_cons X.length L rest.length

theorem find_all_lot_template (mids : List (List Paragraph)) (L : Nat) (pre suf : List Paragraph)
    (hpre : ∀ p ∈ pre, noBk (paraText p) = true)
    (hlen : ∀ ms ∈ mids, ms.length = L)
    (hms : ∀ ms ∈ mids, ∀ p ∈ ms, noBk (paraText p) = true)
    (hsuf : ∀ p ∈ suf, noBk (paraText p) = true) :
    find_all_lot_blocks ((pre ++ (mids.map lotBlk).flatten ++ suf).map Element.para)
      = lotSpans pre.length L mids.length := by
  rw [find_all_lot_blocks, docParas_map_para]
  apply findAllAux_lot mids L pre suf 0 _ (Nat.zero_le _) (fun p hp => hpre p (by simpa using hp))
    hlen hms hsuf
  have h1 := length_flatten_blocks mids L hlen
  have h2 : mids.length ≤ mids.length * (L + 2) := by
    have := Nat.mul_le_mul_left mids.length (show 1 ≤ L + 2 by omega)
    omega
  simp [h1]
  omega

/-! The effect of `duplicate_block` on a canonical template. -/

theorem paraBodyPos_map_para (l : List Paragraph) :
    ∀ (n : Nat), n < l.length → paraBodyPos n (l.map Element.para) = some n := by
  induction l with
  | nil => intro n h; simp at h
  | cons p rest ih =>
    intro n h
    cases n with
    | zero => rfl
    | succ m =>
      show (paraBodyPos m (rest.map Element.para)).map (fun q => q + 1) = some (m + 1)
      rw [ih m (by simp at h; omega)]
      rfl

theorem flatMap_replicate_map_para (n : Nat) (blk : List Paragraph) :
    (List.replicate n blk).flatMap (fun b => b.map Element.para)
      = ((List.replicate n blk).flatten).map Element.para := by
  induction n with
  | zero => rfl
  | succ m ih =>
    rw [List.replicate_succ, List.flatMap_cons, List.flatten_cons, List.map_append, ih]

theorem duplicate_on_paras (pre blk suf : List Paragraph) (n : Nat) (hblk : blk ≠ []) :
    (duplicate_block pre.length (pre.length + blk.length - 1) n
        ((pre ++ blk ++ suf).map Element.para)).1
      = (pre ++ (List.replicate (n + 1) blk).flatten ++ suf).map Element.para := by
  have hb1 : 1 ≤ blk.length := by
    cases blk with
    | nil => exact absurd rfl hblk
    | cons a l => simp
  rw [duplicate_block, docParas_map_para]
  have he : pre.length + blk.length - 1 < (pre ++ blk ++ suf).length := by
    simp
    omega
  rw [paraBodyPos_map_para _ _ he]
  dsimp only
  have hslice : ((pre ++ blk ++ suf).drop pre.length).take
      (pre.length + blk.length - 1 + 1 - pre.length) = blk := by
    rw [show pre ++ blk ++ suf = pre ++ (blk ++ suf) from by simp]
    rw [show (pre ++ (blk ++ suf)).drop pre.length = blk ++ suf from List.drop_left pre _]
    rw [show pre.length + blk.length - 1 + 1 - pre.length = blk.length from by omega]
    exact List.take_left blk suf
  rw [hslice]
  have htake : ((pre ++ blk ++ suf).map Element.para).take (pre.length + blk.length - 1 + 1)
      = (pre ++ blk).map Element.para := by
    rw [← List.map_take]
    congr 1
    rw [show pre.length + blk.length - 1 + 1 = (pre ++ blk).length from by simp; omega]
    rw [show pre ++ blk ++ suf = (pre ++ blk) ++ suf from by simp]
    exact List.take_left (pre ++ blk) suf
  have hdrop : ((pre ++ blk ++ suf).map Element.para).drop (pre.length + blk.length - 1 + 1)
      = suf.map Element.para := by
    rw [← List.map_drop]
    congr 1
    rw [show pre.length + blk.length - 1 + 1 = (pre ++ blk).length from by simp; omega]
    rw [show pre ++ blk ++ suf = (pre ++ blk) ++ suf from by simp]
    exact List.drop_left (pre ++ blk) suf
  rw [htake, hdrop, flatMap_replicate_map_para]
  rw [← List.map_append, ← List.map_append]
  congr 1
  rw [List.replicate_succ, List.flatten_cons]
  simp

/-! The effect of `replace_in_block` on one instance of a paragraph-only
    document. -/

theorem mapParasIdx_map_para (f : Nat → Paragraph → Paragraph) :
    ∀ (l : List Paragraph) (i : Nat),
      mapParasIdx f i (l.map Element.para) = (mapWithIdx f i l).map Element.para := by
  intro l
  induction l with
  | nil => intro i; rfl
  | cons p rest ih =>
    intro i
    show Element.para (f i p) :: mapParasIdx f (i + 1) (rest.map Element.para)
      = Element.para (f i p) :: (mapWithIdx f (i + 1) rest).map Element.para
    rw [ih (i + 1)]

theorem mapWithIdx_tableStage_map_para (reps : List (Str × Str)) (a b : Nat) :
    ∀ (l : List Paragraph) (i : Nat),
      mapWithIdx (tableStageF reps a b) i (l.map Element.para) = l.map Element.para := by
  intro l
  induction l with
  | nil => intro i; rfl
  | cons p rest ih =>
    intro i
    show tableStageF reps a b i (Element.para p)
        :: mapWithIdx (tableStageF reps a b) (i + 1) (rest.map Element.para)
      = Element.para p :: rest.map Element.para
    rw [tableStageF, ih (i + 1)]

theorem mapWithIdx_subst_outside (g : Paragraph → Paragraph) (s e : Nat) :
    ∀ (l : List Paragraph) (i : Nat),
      (∀ j, i ≤ j → j < i + l.length → ¬(s ≤ j ∧ j ≤ e)) →
      mapWithIdx (fun j p => if s ≤ j ∧ j ≤ e then g p else p) i l = l := by
  intro l
  induction l with
  | nil => intro i _; rfl
  | cons p rest ih =>
    intro i h
    rw [mapWithIdx, if_neg (h i (Nat.le_refl i) (by simp)), ih (i + 1)]
    intro j hj1 hj2
    exact h j (by omega) (by simp at hj2 ⊢; omega)

theorem mapWithIdx_subst_inside (g : Paragraph → Paragraph) (s e : Nat) :
    ∀ (l : List Paragraph) (i : Nat),
      (∀ j, i ≤ j → j < i + l.length → s ≤ j ∧ j ≤ e) →
      mapWithIdx (fun j p => if s ≤ j ∧ j ≤ e then g p else p) i l = l.map g := by
  intro l
  induction l with
  | nil => intro i _; rfl
  | cons p rest ih =>
    intro i h
    rw [mapWithIdx, if_pos (h i (Nat.le_refl i) (by simp)), List.map_cons, ih (i + 1)]
    intro j hj1 hj2
    exact h j (by omega) (by simp at hj2 ⊢; omega)

theorem replace_three (reps : List (Str × Str)) (A C B : List Paragraph) (hC : C ≠ []) :
    replace_in_block reps A.length (A.length + C.length - 1) ((A ++ C ++ B).map Element.para)
      = (A ++ C.map (blockParaSubst reps) ++ B).map Element.para := by
  have hC1 : 1 ≤ C.length := by
    cases C with
    | nil => exact absurd rfl hC
    | cons a l => simp
  simp only [replace_in_block]
  rw [docParas_map_para]
  have hn : ¬(A.length ≥ (A ++ C ++ B).length ∨ A.length + C.length - 1 ≥ (A ++ C ++ B).length) := by
    simp
    exact ⟨fun h => absurd h hC, by omega⟩
  rw [if_neg hn]
  rw [mapParasIdx_map_para, mapWithIdx_tableStage_map_para]
  congr 1
  rw [show A ++ C ++ B = A ++ (C ++ B) from by simp]
  rw [mapWithIdx_append]
  rw [mapWithIdx_append]
  rw [mapWithIdx_subst_outside (blockParaSubst reps) _ _ A 0 (by intro j h1 h2; omega)]
  rw [mapWithIdx_subst_inside (blockParaSubst reps) _ _ C (0 + A.length)
    (by intro j h1 h2; omega)]
  rw [mapWithIdx_subst_outside (blockParaSubst reps) _ _ B (0 + A.length + C.length)
    (by intro j h1 h2; omega)]
  simp

/-! A document whose paragraphs carry no ACTIVITY start sentinel is left
    untouched by `_process_activity_blocks`. -/

theorem find_in_range_none_of_no_start (sM eM : Str) (lo hi : Nat) (d : Docu)
    (h : ∀ p ∈ docParas d, strHasSub sM (pyStrip (paraText p)) = false) :
    find_block_in_range sM eM lo hi d = none := by
  rw [find_block_in_range]
  exact scanAux_none_of_no_start sM eM _ _ lo
    (fun p hp => h p (List.mem_of_mem_drop hp))

theorem process_activity_noop (ctx : Context) (ps pe : Nat) (pid : Str) (d : Docu)
    (h : ∀ p ∈ docParas d, strHasSub startActivityM (pyStrip (paraText p)) = false) :
    process_activity_blocks ctx ps pe pid none d = d := by
  have hfind := find_in_range_none_of_no_start startActivityM endActivityM ps pe d h
  simp only [process_activity_blocks, hfind, ite_self]


/-! Helper lemmas for the LOT-rank fill loop: the per-paragraph substitution
    never changes marker paragraphs of another block type, and the canonical
    LOT states stay free of ACTIVITY start markers. -/

theorem paraText_blockParaSubst (reps : List (Str × Str)) (p : Paragraph) :
    paraText (blockParaSubst reps p) = applyReps reps (paraText p) := by
  simp only [blockParaSubst]
  split
  · show (writeBackRuns (applyReps reps (paraText p)) p.runs).flatten
        = applyReps reps (paraText p)
    exact paraText_writeBack _ _
  · next h =>
    show paraText p = applyReps reps (paraText p)
    exact (not_not.mp h).symm

theorem blockParaSubst_lotname_id (name : Str) (p : Paragraph)
    (hfix : strHasSub lotNameTok (paraText p) = false) :
    blockParaSubst [(lotNameTok, name)] p = p := by
  have ht : applyReps [(lotNameTok, name)] (paraText p) = paraText p := by
    rw [applyReps]
    simp only [List.foldl_cons, List.foldl_nil]
    exact pyReplace_of_not_sub _ _ _ hfix
  simp only [blockParaSubst]
  rw [if_neg (not_not_intro ht)]
  rw [if_neg (by
    rintro ⟨⟨kv, hkv, hfst⟩, -⟩
    simp at hkv
    rw [hkv] at hfst
    dsimp only at hfst
    exact absurd hfst (by decide))]

theorem substLotBlk_eq_lotBlk (mid : List Paragraph) (name : Str) :
    substLotBlk mid name = lotBlk (mid.map (blockParaSubst [(lotNameTok, name)])) := by
  rw [substLotBlk, lotBlk, lotBlk]
  simp only [List.map_cons, List.map_append, List.map_nil]
  rw [blockParaSubst_lotname_id name startLotP (by decide),
    blockParaSubst_lotname_id name endLotP (by decide)]

theorem actFree_of_noBk (p : Paragraph) (h : noBk (paraText p) = true) :
    strHasSub startActivityM (pyStrip (paraText p)) = false :=
  noBk_no_marker_sub _ _ (by decide) h

theorem actFree_lotBlk (mid : List Paragraph)
    (hmid : ∀ p ∈ mid, noBk (paraText p) = true) :
    ∀ p ∈ lotBlk mid, strHasSub startActivityM (pyStrip (paraText p)) = false := by
  intro p hp
  rw [lotBlk] at hp
  rcases List.mem_cons.mp hp with h | h
  · subst h; decide
  · rcases List.mem_append.mp h with h2 | h2
    · exact actFree_of_noBk p (hmid p h2)
    · have hz : p = endLotP := by simpa using h2
      subst hz; decide

theorem actFree_substLotBlk (mid : List Paragraph) (name : Str)
    (hmid : ∀ p ∈ mid, noBk (paraText p) = true) (hname : noBk name = true) :
    ∀ p ∈ substLotBlk mid name, strHasSub startActivityM (pyStrip (paraText p)) = false := by
  intro p hp
  rw [substLotBlk_eq_lotBlk, lotBlk] at hp
  rcases List.mem_cons.mp hp with h | h
  · subst h; decide
  · rcases List.mem_append.mp h with h2 | h2
    · rcases List.mem_map.mp h2 with ⟨q, hq, rfl⟩
      apply actFree_of_noBk
      rw [paraText_blockParaSubst]
      apply noBk_applyReps _ _ (hmid q hq)
      intro kv hkv
      simp at hkv
      subst hkv
      exact hname
    · have hz : p = endLotP := by simpa using h2
      subst hz; decide

theorem lotState_actFree (pre mid suf : List Paragraph) (lots : List LotNode) (j : Nat)
    (hpre : ∀ p ∈ pre, noBk (paraText p) = true)
    (hmid : ∀ p ∈ mid, noBk (paraText p) = true)
    (hsuf : ∀ p ∈ suf, noBk (paraText p) = true)
    (hnames : ∀ l ∈ lots, noBk l.node_name = true) :
    ∀ p ∈ docParas (lotState pre mid suf lots j),
      strHasSub startActivityM (pyStrip (paraText p)) = false := by
  intro p hp
  rw [lotState, docParas_map_para] at hp
  simp only [List.mem_append] at hp
  rcases hp with ((h | h) | h) | h
  · exact actFree_of_noBk p (hpre p h)
  · rcases List.mem_flatten.mp h with ⟨l, hl, hpl⟩
    rw [List.eq_of_mem_replicate hl] at hpl
    exact actFree_lotBlk mid hmid p hpl
  · rcases List.mem_flatten.mp h with ⟨bl, hbl, hpbl⟩
    rcases List.mem_map.mp hbl with ⟨lot, hlot, rfl⟩
    exact actFree_substLotBlk mid lot.node_name hmid
      (hnames lot (List.mem_of_mem_drop hlot)) p hpbl
  · exact actFree_of_noBk p (hsuf p h)

theorem lotSpans_length (P L k : Nat) : (lotSpans P L k).length = k := by
  rw [lotSpans]; simp

theorem lotSpans_getD (P L k j : Nat) (hj : j < k) :
    (lotSpans P L k).getD j (0, 0) = (P + j * (L + 2), P + j * (L + 2) + L + 1) := by
  rw [lotSpans, List.getD_eq_getElem?_getD, List.getElem?_map, List.getElem?_range hj]
  rfl

theorem lotState_full (pre mid suf : List Paragraph) (lots : List LotNode) :
    lotState pre mid suf lots lots.length
      = (pre ++ (List.replicate lots.length (lotBlk mid)).flatten ++ suf).map Element.para := by
  rw [lotState, List.drop_length]
  simp

/-! `_delete_block` on an all-paragraph document removes exactly the
    index range. -/

theorem deleteParasRange_map_para_mid (s e : Nat) (hse : s ≤ e) :
    ∀ (l : List Paragraph) (i : Nat), s < i → i ≤ e + 1 →
      deleteParasRange s e i (l.map Element.para) = (l.drop (e + 1 - i)).map Element.para := by
  intro l
  induction l with
  | nil => intro i _ _; simp [deleteParasRange]
  | cons p rest ih =>
    intro i h1 h2
    by_cases hie : i ≤ e
    · show deleteParasRange s e i (Element.para p :: rest.map Element.para) = _
      rw [deleteParasRange, if_pos ⟨by omega, hie⟩, ih (i + 1) (by omega) (by omega)]
      rw [show e + 1 - i = (e + 1 - (i + 1)) + 1 from by omega, List.drop_succ_cons]
    · have hi : i = e + 1 := by omega
      show deleteParasRange s e i (Element.para p :: rest.map Element.para) = _
      rw [deleteParasRange, if_neg (by omega), deleteParasRange_past s e _ (i + 1) (by omega)]
      rw [hi]
      simp

theorem deleteParasRange_map_para (s e : Nat) (hse : s ≤ e) :
    ∀ (l : List Paragraph) (i : Nat), i ≤ s →
      deleteParasRange s e i (l.map Element.para)
        = (l.take (s - i) ++ l.drop (e + 1 - i)).map Element.para := by
  intro l
  induction l with
  | nil => intro i _; simp [deleteParasRange]
  | cons p rest ih =>
    intro i hi
    by_cases his : i = s
    · show deleteParasRange s e i (Element.para p :: rest.map Element.para) = _
      rw [deleteParasRange, if_pos ⟨by omega, by omega⟩]
      rw [deleteParasRange_map_para_mid s e hse rest (i + 1) (by omega) (by omega)]
      rw [show s - i = 0 from by omega, List.take_zero, List.nil_append]
      rw [show e + 1 - i = (e + 1 - (i + 1)) + 1 from by omega, List.drop_succ_cons]
    · have h2 : i < s := by omega
      show deleteParasRange s e i (Element.para p :: rest.map Element.para) = _
      rw [deleteParasRange, if_neg (by omega), ih (i + 1) (by omega)]
      rw [show s - i = (s - (i + 1)) + 1 from by omega, List.take_succ_cons]
      rw [show e + 1 - i = (e + 1 - (i + 1)) + 1 from by omega, List.drop_succ_cons]
      simp


/-! One pass of the reverse fill loop of `_process_lot_blocks` turns the
    state with `j + 1` unresolved instances into the state with `j`. -/

set_option maxHeartbeats 1600000 in
theorem lotFillStep_state (ctx : Context) (pre mid suf : List Paragraph) (lots : List LotNode)
    (j : Nat) (hj : j < lots.length)
    (hpre : ∀ p ∈ pre, noBk (paraText p) = true)
    (hmid : ∀ p ∈ mid, noBk (paraText p) = true)
    (hsuf : ∀ p ∈ suf, noBk (paraText p) = true)
    (hnames : ∀ l ∈ lots, noBk l.node_name = true) :
    lotFillStep ctx lots (lotSpans pre.length mid.length lots.length)
      (lotState pre mid suf lots (j + 1)) j = lotState pre mid suf lots j := by
  have hblk : (lotBlk mid).length = mid.length + 2 := by rw [lotBlk]; simp
  have hA : (pre ++ (List.replicate j (lotBlk mid)).flatten).length
      = pre.length + j * (mid.length + 2) := by
    rw [List.length_append, length_flatten_replicate, hblk]
  have hsplit : lotState pre mid suf lots (j + 1)
      = ((pre ++ (List.replicate j (lotBlk mid)).flatten) ++ lotBlk mid
          ++ (((lots.drop (j + 1)).map (fun l => substLotBlk mid l.node_name)).flatten
            ++ suf)).map Element.para := by
    rw [lotState, List.replicate_succ', List.flatten_append]
    simp only [List.flatten_cons, List.flatten_nil, List.append_nil, List.append_assoc]
  have hlot : lots.getD j defaultLot = lots[j] := List.getD_eq_getElem lots defaultLot hj
  rw [lotFillStep, lotSpans_length, if_pos hj]
  dsimp only
  rw [lotSpans_getD _ _ _ _ hj]
  dsimp only
  rw [hlot, hsplit]
  rw [show pre.length + j * (mid.length + 2)
      = (pre ++ (List.replicate j (lotBlk mid)).flatten).length from hA.symm]
  rw [show (pre ++ (List.replicate j (lotBlk mid)).flatten).length + mid.length + 1
      = (pre ++ (List.replicate j (lotBlk mid)).flatten).length + (lotBlk mid).length - 1
      from by rw [hblk]; omega]
  rw [replace_three [(lotNameTok, (lots[j]).node_name)]
    (pre ++ (List.replicate j (lotBlk mid)).flatten) (lotBlk mid)
    (((lots.drop (j + 1)).map (fun l => substLotBlk mid l.node_name)).flatten ++ suf)
    (by rw [lotBlk]; exact List.cons_ne_nil _ _)]
  have htgt : ((pre ++ (List.replicate j (lotBlk mid)).flatten)
      ++ (lotBlk mid).map (blockParaSubst [(lotNameTok, (lots[j]).node_name)])
      ++ (((lots.drop (j + 1)).map (fun l => substLotBlk mid l.node_name)).flatten
        ++ suf)).map Element.para
      = lotState pre mid suf lots j := by
    rw [lotState, List.drop_eq_getElem_cons hj, List.map_cons, List.flatten_cons]
    rw [← substLotBlk]
    simp only [List.append_assoc]
  rw [htgt]
  exact process_activity_noop ctx _ _ _ _
    (lotState_actFree pre mid suf lots j hpre hmid hsuf hnames)

set_option maxHeartbeats 1600000 in
theorem lotFill_segment (ctx : Context) (pre mid suf : List Paragraph) (lots : List LotNode)
    (hpre : ∀ p ∈ pre, noBk (paraText p) = true)
    (hmid : ∀ p ∈ mid, noBk (paraText p) = true)
    (hsuf : ∀ p ∈ suf, noBk (paraText p) = true)
    (hnames : ∀ l ∈ lots, noBk l.node_name = true) :
    ∀ (b a : Nat), a ≤ b → b ≤ lots.length →
      (((List.range b).drop a).reverse).foldl
          (lotFillStep ctx lots (lotSpans pre.length mid.length lots.length))
          (lotState pre mid suf lots b)
        = lotState pre mid suf lots a := by
  intro b
  induction b with
  | zero =>
    intro a ha _
    have ha0 : a = 0 := Nat.le_zero.mp ha
    subst ha0
    simp
  | succ m ih =>
    intro a ha hb
    by_cases ham : a = m + 1
    · subst ham
      have hnil : (List.range (m + 1)).drop (m + 1) = [] := by
        apply List.drop_eq_nil_of_le
        rw [List.length_range]
      rw [hnil]
      simp
    · have ham2 : a ≤ m := by omega
      have hsplit : (List.range (m + 1)).drop a = (List.range m).drop a ++ [m] := by
        rw [List.range_succ]
        rw [List.drop_append_of_le_length (by rw [List.length_range]; exact ham2)]
      rw [hsplit, List.reverse_append, List.reverse_singleton, List.singleton_append,
        List.foldl_cons]
      rw [lotFillStep_state ctx pre mid suf lots m (by omega) hpre hmid hsuf hnames]
      exact ih a ham2 (by omega)


set_option maxHeartbeats 1600000 in
/-- C1: Cardinality law for the LOT rank.  On a canonical template — a
    paragraph-only document `pre ++ lotBlk mid ++ suf` whose filler
    paragraphs and lot names are bracket-free — with a tree holding `k`
    lots, `_process_lot_blocks` produces exactly `k` sibling instances of
    the block, each carrying its own lot's substituted values (for `k = 0`
    the whole extent is deleted, for `k = 1` the original alone is
    resolved, for `k > 1` it is duplicated `k - 1` times first), and the
    re-scan discovers exactly those `k` instances at their spans. -/
theorem cardinality_law_lot_rank (ctx : Context) (tr : Tree) (pre mid suf : List Paragraph)
    (hLots : ctx.hasLots = true) (hTree : ctx.tree = some tr)
    (hpre : ∀ p ∈ pre, noBk (paraText p) = true)
    (hmid : ∀ p ∈ mid, noBk (paraText p) = true)
    (hsuf : ∀ p ∈ suf, noBk (paraText p) = true)
    (hnames : ∀ l ∈ tr.lots, noBk l.node_name = true) :
    process_lot_blocks ctx ((pre ++ lotBlk mid ++ suf).map Element.para)
        = (pre ++ (tr.lots.map (fun l => substLotBlk mid l.node_name)).flatten ++ suf).map
            Element.para
      ∧ find_all_lot_blocks
            ((pre ++ (tr.lots.map (fun l => substLotBlk mid l.node_name)).flatten ++ suf).map
              Element.para)
          = lotSpans pre.length mid.length tr.lots.length := by
  constructor
  · rw [process_lot_blocks, if_pos hLots]
    rw [find_block_template pre mid suf hpre hmid]
    dsimp only
    rw [hTree]
    dsimp only [treeOr]
    by_cases hk : tr.lots.isEmpty
    · rw [if_pos hk]
      have hknil : tr.lots = [] := List.isEmpty_iff.mp hk
      rw [delete_block]
      rw [deleteParasRange_map_para pre.length (pre.length + mid.length + 1) (by omega) _ 0
        (Nat.zero_le _)]
      rw [hknil]
      simp only [List.map_nil, List.flatten_nil, List.append_nil]
      congr 1
      rw [Nat.sub_zero, Nat.sub_zero]
      have ht : (pre ++ lotBlk mid ++ suf).take pre.length = pre := by
        rw [show pre ++ lotBlk mid ++ suf = pre ++ (lotBlk mid ++ suf) from by simp]
        exact List.take_left pre _
      have hd : (pre ++ lotBlk mid ++ suf).drop (pre.length + mid.length + 1 + 1) = suf := by
        rw [show pre.length + mid.length + 1 + 1 = (pre ++ lotBlk mid).length from by
          simp [lotBlk]; omega]
        exact List.drop_left _ _
      rw [ht, hd]
    · rw [if_neg hk]
      have hkne : tr.lots ≠ [] := by
        intro h0
        rw [h0] at hk
        exact hk rfl
      have hlen1 : 1 ≤ tr.lots.length := by
        cases h0 : tr.lots with
        | nil => exact absurd h0 hkne
        | cons a l => simp
      have hD1 : (if tr.lots.length > 1
            then (duplicate_block pre.length (pre.length + mid.length + 1)
              (tr.lots.length - 1) ((pre ++ lotBlk mid ++ suf).map Element.para)).1
            else (pre ++ lotBlk mid ++ suf).map Element.para)
          = lotState pre mid suf tr.lots tr.lots.length := by
        rw [lotState_full]
        by_cases hgt : tr.lots.length > 1
        · rw [if_pos hgt]
          have hblk : (lotBlk mid).length = mid.length + 2 := by rw [lotBlk]; simp
          rw [show pre.length + mid.length + 1 = pre.length + (lotBlk mid).length - 1 from by
            rw [hblk]; omega]
          rw [duplicate_on_paras pre (lotBlk mid) suf (tr.lots.length - 1)
            (by rw [lotBlk]; exact List.cons_ne_nil _ _)]
          rw [show tr.lots.length - 1 + 1 = tr.lots.length from by omega]
        · rw [if_neg hgt]
          have h1 : tr.lots.length = 1 := by omega
          rw [h1]
          simp
      rw [hD1]
      have hblocks : find_all_lot_blocks (lotState pre mid suf tr.lots tr.lots.length)
          = lotSpans pre.length mid.length tr.lots.length := by
        rw [lotState_full]
        have hfa := find_all_lot_template (List.replicate tr.lots.length mid) mid.length pre suf
          hpre (fun ms hms => by rw [List.eq_of_mem_replicate hms])
          (fun ms hms => by rw [List.eq_of_mem_replicate hms]; exact hmid) hsuf
        rw [List.map_replicate, List.length_replicate] at hfa
        exact hfa
      rw [hblocks]
      have hseg := lotFill_segment ctx pre mid suf tr.lots hpre hmid hsuf hnames
        tr.lots.length 0 (Nat.zero_le _) (le_refl _)
      rw [List.drop_zero] at hseg
      rw [hseg]
      rw [lotState]
      simp
  · have hre : (tr.lots.map (fun l => substLotBlk mid l.node_name))
        = (tr.lots.map (fun l => mid.map (blockParaSubst [(lotNameTok, l.node_name)]))).map
            lotBlk := by
      rw [List.map_map]
      apply List.map_congr_left
      intro l _
      simp only [Function.comp_apply]
      exact substLotBlk_eq_lotBlk mid l.node_name
    rw [hre]
    have hfa := find_all_lot_template
      (tr.lots.map (fun l => mid.map (blockParaSubst [(lotNameTok, l.node_name)])))
      mid.length pre suf hpre
      (fun ms hms => by
        rcases List.mem_map.mp hms with ⟨l, hl, rfl⟩
        simp)
      (fun ms hms p hp => by
        rcases List.mem_map.mp hms with ⟨l, hl, hms2⟩
        subst hms2
        rcases List.mem_map.mp hp with ⟨q, hq, rfl⟩
        rw [paraText_blockParaSubst]
        apply noBk_applyReps _ _ (hmid q hq)
        intro kv hkv
        simp at hkv
        subst hkv
        exact hnames l hl)
      hsuf
    rw [List.length_map] at hfa
    exact hfa

theorem cardinality_law_lot_rank_witness :
    process_lot_blocks ctxC1 ((preC1 ++ lotBlk midC1 ++ sufC1).map Element.para)
        = (preC1 ++ (treeC1.lots.map (fun l => substLotBlk midC1 l.node_name)).flatten
            ++ sufC1).map Element.para
      ∧ find_all_lot_blocks
            ((preC1 ++ (treeC1.lots.map (fun l => substLotBlk midC1 l.node_name)).flatten
              ++ sufC1).map Element.para)
          = lotSpans preC1.length midC1.length treeC1.lots.length :=
  cardinality_law_lot_rank ctxC1 treeC1 preC1 midC1 sufC1 rfl rfl
    (by decide) (by decide) (by decide) (by decide)


/-! Prefix stability of the LOT states: positions below a still-unresolved
    instance are identical in every later fill state. -/

theorem getD_append_agree (A B C : List Paragraph) (m : Nat) (hm : m < A.length) :
    (A ++ B).getD m pZ = (A ++ C).getD m pZ := by
  rw [List.getD_append A B pZ m hm, List.getD_append A C pZ m hm]

theorem flatten_replicate_split (j k : Nat) (blk : List Paragraph) (hjk : j ≤ k) :
    (List.replicate k blk).flatten
      = (List.replicate j blk).flatten ++ (List.replicate (k - j) blk).flatten := by
  rw [← List.flatten_append, ← List.replicate_add]
  rw [show j + (k - j) = k from by omega]

theorem lotState_getD_agree (pre mid suf : List Paragraph) (lots : List LotNode) (j m : Nat)
    (hj : j ≤ lots.length) (hm : m < pre.length + j * (mid.length + 2)) :
    (docParas (lotState pre mid suf lots j)).getD m pZ
      = (docParas (lotState pre mid suf lots lots.length)).getD m pZ := by
  have hblk : (lotBlk mid).length = mid.length + 2 := by rw [lotBlk]; simp
  have hA : (pre ++ (List.replicate j (lotBlk mid)).flatten).length
      = pre.length + j * (mid.length + 2) := by
    rw [List.length_append, length_flatten_replicate, hblk]
  have h1 : docParas (lotState pre mid suf lots j)
      = (pre ++ (List.replicate j (lotBlk mid)).flatten)
        ++ (((lots.drop j).map (fun l => substLotBlk mid l.node_name)).flatten ++ suf) := by
    rw [lotState, docParas_map_para]
    simp only [List.append_assoc]
  have h2 : docParas (lotState pre mid suf lots lots.length)
      = (pre ++ (List.replicate j (lotBlk mid)).flatten)
        ++ ((List.replicate (lots.length - j) (lotBlk mid)).flatten ++ suf) := by
    rw [lotState_full, docParas_map_para, flatten_replicate_split j lots.length (lotBlk mid) hj]
    simp only [List.append_assoc]
  rw [h1, h2]
  exact getD_append_agree _ _ _ m (by rw [hA]; exact hm)

set_option maxHeartbeats 1600000 in
/-- C5: Reverse-order sibling processing.  The LOT fill loop folds over
    `(List.range k).reverse`, so the instance with the highest start index
    is resolved first.  After the loop has handled every sibling with index
    above `i` (the first `k - 1 - i` iterations of the reverse order), all
    paragraph positions up to and including instance `i`\'s recorded END
    index hold exactly the paragraphs they held when the extents were
    recorded, so the recorded indices of the not-yet-visited sibling are
    still valid. -/
theorem reverse_order_sibling_processing (ctx : Context) (pre mid suf : List Paragraph)
    (lots : List LotNode) (i : Nat) (hi : i < lots.length)
    (hpre : ∀ p ∈ pre, noBk (paraText p) = true)
    (hmid : ∀ p ∈ mid, noBk (paraText p) = true)
    (hsuf : ∀ p ∈ suf, noBk (paraText p) = true)
    (hnames : ∀ l ∈ lots, noBk l.node_name = true) :
    (lotSpans pre.length mid.length lots.length).getD i (0, 0)
        = (pre.length + i * (mid.length + 2),
           pre.length + i * (mid.length + 2) + mid.length + 1)
      ∧ ∀ m, m ≤ pre.length + i * (mid.length + 2) + mid.length + 1 →
          (docParas ((((List.range lots.length).reverse).take (lots.length - 1 - i)).foldl
              (lotFillStep ctx lots (lotSpans pre.length mid.length lots.length))
              (lotState pre mid suf lots lots.length))).getD m pZ
            = (docParas (lotState pre mid suf lots lots.length)).getD m pZ := by
  constructor
  · exact lotSpans_getD _ _ _ _ hi
  · intro m hm
    have htake : ((List.range lots.length).reverse).take (lots.length - 1 - i)
        = ((List.range lots.length).drop (i + 1)).reverse := by
      rw [List.take_reverse, List.length_range]
      rw [show lots.length - (lots.length - 1 - i) = i + 1 from by omega]
    rw [htake]
    rw [lotFill_segment ctx pre mid suf lots hpre hmid hsuf hnames lots.length (i + 1)
      (by omega) (le_refl _)]
    apply lotState_getD_agree pre mid suf lots (i + 1) m (by omega)
    have hx : (i + 1) * (mid.length + 2) = i * (mid.length + 2) + (mid.length + 2) := by ring
    omega

theorem reverse_order_sibling_processing_witness :
    (lotSpans preC1.length midC1.length treeC1.lots.length).getD 0 (0, 0)
        = (preC1.length + 0 * (midC1.length + 2),
           preC1.length + 0 * (midC1.length + 2) + midC1.length + 1)
      ∧ (docParas ((((List.range treeC1.lots.length).reverse).take
            (treeC1.lots.length - 1 - 0)).foldl
            (lotFillStep ctxC1 treeC1.lots
              (lotSpans preC1.length midC1.length treeC1.lots.length))
            (lotState preC1 midC1 sufC1 treeC1.lots treeC1.lots.length))).getD 3 pZ
          = (docParas (lotState preC1 midC1 sufC1 treeC1.lots treeC1.lots.length)).getD 3 pZ := by
  have h := reverse_order_sibling_processing ctxC1 preC1 midC1 sufC1 treeC1.lots 0
    (by decide) (by decide) (by decide) (by decide) (by decide)
  exact ⟨h.1, h.2 3 (by decide)⟩

/-! The whole-document locator never returns a pair when no paragraph
    contains the start marker. -/

theorem findBlockAux_none_of_no_start (sM eM : Str) :
    ∀ (L : List Paragraph) (i : Nat),
      (∀ p ∈ L, strHasSub sM (pyStrip (paraText p)) = false) →
      findBlockAux sM eM L i none = none := by
  intro L
  induction L with
  | nil => intro i _; rfl
  | cons p rest ih =>
    intro i h
    have hp := h p (List.mem_cons_self p rest)
    rw [findBlockAux, if_neg (by simp [hp]), if_neg (by simp)]
    exact ih (i + 1) (fun q hq => h q (List.mem_cons_of_mem p hq))

set_option maxHeartbeats 1600000 in
/-- C6 (amended): the marker locator contract.  `find_block` scans forward
    and keeps overwriting the recorded START index at every paragraph whose
    stripped text contains the start marker, so it returns the LAST such
    index seen before the first later end-marker paragraph (one containing
    the end marker but not the start marker); `_find_block_in_range`
    records only the FIRST START of its range.  Both return `None` when no
    complete pair exists, which callers treat as section-absent and skip. -/
theorem locator_amended (sM eM : Str)
    (pre mid1 mid2 suf : List Paragraph) (a b z : Paragraph)
    (hs : '[' ∈ sM) (he : '[' ∈ eM)
    (ha : strHasSub sM (pyStrip (paraText a)) = true)
    (hb : strHasSub sM (pyStrip (paraText b)) = true)
    (hbe : strHasSub eM (pyStrip (paraText b)) = false)
    (hz : strHasSub eM (pyStrip (paraText z)) = true)
    (hzs : strHasSub sM (pyStrip (paraText z)) = false)
    (hpre : ∀ p ∈ pre, noBk (paraText p) = true)
    (hm1 : ∀ p ∈ mid1, noBk (paraText p) = true)
    (hm2 : ∀ p ∈ mid2, noBk (paraText p) = true) :
    find_block sM eM ((pre ++ a :: (mid1 ++ b :: (mid2 ++ z :: suf))).map Element.para)
        = some (pre.length + mid1.length + 1, pre.length + mid1.length + mid2.length + 2)
      ∧ find_block_in_range sM eM 0 (pre ++ a :: (mid1 ++ b :: (mid2 ++ z :: suf))).length
            ((pre ++ a :: (mid1 ++ b :: (mid2 ++ z :: suf))).map Element.para)
          = some (pre.length, pre.length + mid1.length + mid2.length + 2)
      ∧ ∀ (dno : Docu) (lo hi : Nat),
          (∀ p ∈ docParas dno, strHasSub sM (pyStrip (paraText p)) = false) →
          find_block sM eM dno = none ∧ find_block_in_range sM eM lo hi dno = none := by
  refine ⟨?_, ?_, ?_⟩
  · rw [find_block, docParas_map_para]
    rw [findBlockAux_skip_none sM eM pre _ 0
      (fun p hp => noBk_no_marker_sub _ _ hs (hpre p hp))]
    rw [findBlockAux_start sM eM a _ _ _ ha]
    rw [findBlockAux_skip_some sM eM mid1 _ _ _
      (fun p hp => ⟨noBk_no_marker_sub _ _ hs (hm1 p hp),
        noBk_no_marker_sub _ _ he (hm1 p hp)⟩)]
    rw [findBlockAux_start sM eM b _ _ _ hb]
    rw [findBlockAux_skip_some sM eM mid2 _ _ _
      (fun p hp => ⟨noBk_no_marker_sub _ _ hs (hm2 p hp),
        noBk_no_marker_sub _ _ he (hm2 p hp)⟩)]
    rw [findBlockAux_end sM eM z suf _ _ hzs hz]
    simp only [Option.some.injEq, Prod.mk.injEq]
    exact ⟨by omega, by omega⟩
  · rw [find_block_in_range]
    rw [docParas_map_para, List.drop_zero, Nat.sub_zero]
    rw [Nat.min_eq_right (Nat.le_succ _)]
    rw [List.length_append]
    rw [scanAux_skip_none sM eM pre _ 0
      (fun p hp => noBk_no_marker_sub _ _ hs (hpre p hp))]
    rw [show (a :: (mid1 ++ b :: (mid2 ++ z :: suf))).length
        = (mid1 ++ b :: (mid2 ++ z :: suf)).length + 1 from by simp]
    rw [scanAux_start sM eM a _ _ ha]
    rw [show mid1 ++ b :: (mid2 ++ z :: suf) = (mid1 ++ b :: mid2) ++ (z :: suf) from by simp]
    rw [List.length_append]
    rw [scanAux_skip_some sM eM (mid1 ++ b :: mid2) (z :: suf) _ _
      (fun p hp => by
        rcases List.mem_append.mp hp with h1 | h1
        · exact noBk_no_marker_sub _ _ he (hm1 p h1)
        · rcases List.mem_cons.mp h1 with h2 | h2
          · rw [h2]; exact hbe
          · exact noBk_no_marker_sub _ _ he (hm2 p h2))]
    rw [show (z :: suf).length = suf.length + 1 from by simp]
    rw [scanAux_end sM eM z suf _ _ hz]
    simp only [Option.some.injEq, Prod.mk.injEq, List.length_append, List.length_cons]
    exact ⟨by omega, by omega⟩
  · intro dno lo hi h
    exact ⟨by rw [find_block]; exact findBlockAux_none_of_no_start sM eM _ 0 h,
      find_in_range_none_of_no_start sM eM lo hi dno h⟩

theorem locator_amended_witness :
    find_block startLotM endLotM
        (([mkP "x"] ++ startLotP :: ([mkP "y"] ++ startLotP :: (([] : List Paragraph)
          ++ endLotP :: []))).map Element.para)
        = some (3, 4)
      ∧ find_block_in_range startLotM endLotM 0 5
          (([mkP "x"] ++ startLotP :: ([mkP "y"] ++ startLotP :: (([] : List Paragraph)
            ++ endLotP :: []))).map Element.para)
          = some (1, 4)
      ∧ find_block startLotM endLotM docC3 = none := by
  have h := locator_amended startLotM endLotM [mkP "x"] [mkP "y"] [] [] startLotP startLotP
    endLotP (by decide) (by decide) (by decide) (by decide) (by decide) (by decide) (by decide)
    (by decide) (by decide) (by decide)
  exact ⟨h.1, h.2.1, (h.2.2 docC3 0 1 (by decide)).1⟩

end CarbonReport
